import Mathlib

/-!
Verification of the Novel-IDE workspace core (src-tauri).

This file shallowly embeds the pure logic of the repository's Rust sources:

* `commands.rs` : `validate_relative_path`, `update_concept_index`,
  `validate_outline`;
* `agent_system.rs` : `ToolRegistry`, `MemoryStore`, `parse_tool_call`,
  the `fs_write_text` tool handler, and the `run_react` loop.

Modelling conventions:

* Rust `String`/`&str` become Lean `String`; the character-level operations
  used by the code (`trim`, `to_ascii_uppercase`, splitting) are implemented
  here over `List Char` so that they are fully executable and provable.
  `trim`/`is_whitespace` are modelled on the ASCII whitespace subset, and
  `to_lowercase`/`to_ascii_uppercase` on the ASCII letters, which is the
  alphabet every code path under verification actually uses.
* `std::path` component parsing is modelled with POSIX semantics (the target
  triple this desktop app is compiled for on Linux/macOS): an absolute path
  is one starting with `/`, `Prefix` components do not arise.
* `serde_json` is an external collaborator: JSON values are the inductive
  `J` below, and the JSON *parser* and *printer* are passed in as opaque
  function parameters (`jp`, `jser`) exactly where the Rust code calls into
  serde.  `blake3::hash` and `SystemTime::now` are likewise passed in as
  opaque parameters (`hash`, `now`).
* `BTreeMap` is modelled as an association list; only lookup/insert
  semantics are observable in the verified properties, never iteration
  order of the map itself (conflict output order is driven by the input
  event lists, and persisted-index comparisons are always between a state
  and itself).
* The filesystem (for the `fs_write_text` handler) is a finite map from
  normalised path segments to file contents plus a set of existing
  directories; path resolution normalises away `.` segments the way a real
  filesystem does.
-/

/-! ## Character / string primitives (mirroring the Rust std behaviour used) -/

/-- ASCII `char::to_ascii_uppercase`: maps `a`..`z` to `A`..`Z`, fixes the rest. -/
def chUpper (c : Char) : Char :=
  if c = 'a' then 'A' else if c = 'b' then 'B' else if c = 'c' then 'C'
  else if c = 'd' then 'D' else if c = 'e' then 'E' else if c = 'f' then 'F'
  else if c = 'g' then 'G' else if c = 'h' then 'H' else if c = 'i' then 'I'
  else if c = 'j' then 'J' else if c = 'k' then 'K' else if c = 'l' then 'L'
  else if c = 'm' then 'M' else if c = 'n' then 'N' else if c = 'o' then 'O'
  else if c = 'p' then 'P' else if c = 'q' then 'Q' else if c = 'r' then 'R'
  else if c = 's' then 'S' else if c = 't' then 'T' else if c = 'u' then 'U'
  else if c = 'v' then 'V' else if c = 'w' then 'W' else if c = 'x' then 'X'
  else if c = 'y' then 'Y' else if c = 'z' then 'Z' else c

/-- ASCII `char::to_lowercase`: maps `A`..`Z` to `a`..`z`, fixes the rest. -/
def chLower (c : Char) : Char :=
  if c = 'A' then 'a' else if c = 'B' then 'b' else if c = 'C' then 'c'
  else if c = 'D' then 'd' else if c = 'E' then 'e' else if c = 'F' then 'f'
  else if c = 'G' then 'g' else if c = 'H' then 'h' else if c = 'I' then 'i'
  else if c = 'J' then 'j' else if c = 'K' then 'k' else if c = 'L' then 'l'
  else if c = 'M' then 'm' else if c = 'N' then 'n' else if c = 'O' then 'o'
  else if c = 'P' then 'p' else if c = 'Q' then 'q' else if c = 'R' then 'r'
  else if c = 'S' then 's' else if c = 'T' then 't' else if c = 'U' then 'u'
  else if c = 'V' then 'v' else if c = 'W' then 'w' else if c = 'X' then 'x'
  else if c = 'Y' then 'y' else if c = 'Z' then 'z' else c

/-- ASCII whitespace, the subset of Rust `char::is_whitespace` relevant here. -/
def chIsWs (c : Char) : Bool :=
  c = ' ' || c = '\t' || c = '\r' || c = '\n'

/-- `str::trim` on a character list. -/
def trimL (l : List Char) : List Char :=
  ((l.dropWhile chIsWs).reverse.dropWhile chIsWs).reverse

/-- `str::trim` on strings. -/
def trimS (s : String) : String := ⟨trimL s.data⟩

/-- ASCII-uppercase a string (`str::to_ascii_uppercase`). -/
def upperS (s : String) : String := ⟨s.data.map chUpper⟩

/-- ASCII-lowercase a string (`str::to_lowercase` restricted to ASCII). -/
def lowerS (s : String) : String := ⟨s.data.map chLower⟩

/-- `l` starts with the pattern `pre` (`str::starts_with`). -/
def startsL : List Char → List Char → Bool
  | [], _ => true
  | _ :: _, [] => false
  | p :: ps, c :: cs => p = c && startsL ps cs

/-- `s` starts with the pattern `pre`. -/
def startsS (s pre : String) : Bool := startsL pre.data s.data

/-- `s` ends with the pattern `suf` (`str::ends_with`). -/
def endsS (s suf : String) : Bool := startsL suf.data.reverse s.data.reverse

/-- Split a character list at every occurrence of `sep`
(`str::split(sep)` semantics: n separators yield n+1 pieces). -/
def splitCh (sep : Char) : List Char → List (List Char)
  | [] => [[]]
  | c :: cs =>
    if c = sep then [] :: splitCh sep cs
    else
      match splitCh sep cs with
      | [] => [[c]]
      | p :: ps => (c :: p) :: ps

/-- Join pieces back with a separator character. -/
def joinCh (sep : Char) : List (List Char) → List Char
  | [] => []
  | [x] => x
  | x :: xs => x ++ sep :: joinCh sep xs

/-- Substring test, `str::contains` over character lists. -/
def containsSub (hay needle : List Char) : Bool :=
  match hay with
  | [] => needle = []
  | _ :: t => startsL needle hay || containsSub t needle

/-! ## Association lists (the observable fragment of `HashMap` / `BTreeMap`) -/

/-- Map lookup on an association list. -/
def alookup {α : Type} : List (String × α) → String → Option α
  | [], _ => none
  | (k, v) :: rest, key => if k = key then some v else alookup rest key

/-- Map insert-or-replace on an association list
(`BTreeMap::insert` / `HashMap::insert` value semantics; iteration order of
the underlying Rust map is not observed by any verified property). -/
def aset {α : Type} : List (String × α) → String → α → List (String × α)
  | [], key, v => [(key, v)]
  | (k, w) :: rest, key, v =>
    if k = key then (k, v) :: rest else (k, w) :: aset rest key v

/-! ## `validate_relative_path` (commands.rs lines 1135-1147)

```rust
pub(crate) fn validate_relative_path(relative_path: &str) -> Result<PathBuf, String> {
  let p = PathBuf::from(relative_path);
  if p.is_absolute() { return Err("absolute path is not allowed".to_string()); }
  for c in p.components() {
    match c {
      Component::Normal(_) | Component::CurDir => {}
      _ => return Err("invalid relative path".to_string()),
    }
  }
  Ok(p)
}
```
-/

/-- `std::path::Component`, POSIX flavour (no `Prefix` on Unix targets). -/
inductive PComp where
  | rootC
  | curC
  | parentC
  | normalC (s : List Char)
deriving DecidableEq

/-- The non-empty slash-separated segments of a path string. -/
def segsOf (s : String) : List (List Char) :=
  (splitCh '/' s.data).filter (fun t => t ≠ [])

/-- `Path::is_absolute` on POSIX: the path has a root. -/
def isAbsS (s : String) : Bool := startsL ['/'] s.data

/-- How one non-leading segment normalises in `Path::components`:
interior `.` segments are dropped, `..` is `ParentDir`, the rest is `Normal`. -/
def compOfSeg (t : List Char) : List PComp :=
  if t = ['.'] then []
  else if t = ['.', '.'] then [PComp.parentC]
  else [PComp.normalC t]

/-- `Path::components` for a POSIX path: a leading `/` gives `RootDir`, a
leading `.` of a relative path is kept as `CurDir`, and the remaining
segments normalise via `compOfSeg`. -/
def componentsOf (s : String) : List PComp :=
  let segs := segsOf s
  if isAbsS s then PComp.rootC :: (segs.map compOfSeg).flatten
  else
    match segs with
    | [] => []
    | t :: rest =>
      (if t = ['.'] then [PComp.curC] else compOfSeg t) ++
        (rest.map compOfSeg).flatten

/-- The component loop of `validate_relative_path`: `Normal` and `CurDir`
pass, anything else trips the early `return Err`. -/
def checkComps : List PComp → Bool
  | [] => true
  | PComp.normalC _ :: rest => checkComps rest
  | PComp.curC :: rest => checkComps rest
  | PComp.rootC :: _ => false
  | PComp.parentC :: _ => false

/-- `validate_relative_path` from commands.rs. -/
def validate_relative_path (s : String) : Except String String :=
  if isAbsS s then .error "absolute path is not allowed"
  else if checkComps (componentsOf s) then .ok s
  else .error "invalid relative path"

/-! ## `validate_outline` (commands.rs lines 1212-1283)

The checker parses two JSON payloads into `Outline { events }` records,
concatenates the event lists (existing first), then makes two scans over
the combined list: a duplicate-id scan and a timeline scan.  The event
scans below are verbatim translations of the two `for` loops.
-/

/-- `Event` from `validate_outline` (all fields `#[serde(default)]`). -/
structure Event where
  id : String := ""
  time : String := ""
  location : String := ""
  characters : List String := []
  description : String := ""
deriving DecidableEq, Inhabited

/-- The duplicate-id conflict line
`format!("事件 id 重复：{}（{} 与 {}）", id, prev + 1, idx + 1)`. -/
def dupMsg (id : String) (prev1 idx1 : Nat) : String :=
  "事件 id 重复：" ++ id ++ "（" ++ toString prev1 ++ " 与 " ++ toString idx1 ++ "）"

/-- The timeline conflict line
`format!("时间线冲突：{} 在 {} 同时出现在 {} 与 {}", ch, time, prev, loc)`. -/
def tlMsg (ch time prev loc : String) : String :=
  "时间线冲突：" ++ ch ++ " 在 " ++ time ++ " 同时出现在 " ++ prev ++ " 与 " ++ loc

/-- The duplicate-id `for (idx, ev)` loop: `id_set` maps a non-blank id to
the index where it was most recently inserted (`BTreeMap::insert` returns
the previous value), and every repeat pushes one conflict line. -/
def dupScanGo : List Event → Nat → List (String × Nat) → List String
  | [], _, _ => []
  | e :: rest, idx, idMap =>
    if trimS e.id = "" then dupScanGo rest (idx + 1) idMap
    else
      match alookup idMap e.id with
      | some prev =>
        dupMsg e.id (prev + 1) (idx + 1) ::
          dupScanGo rest (idx + 1) (aset idMap e.id idx)
      | none => dupScanGo rest (idx + 1) (aset idMap e.id idx)

/-- All duplicate-id conflicts of the combined event list. -/
def dupConflicts (evs : List Event) : List String := dupScanGo evs 0 []

/-- State of the timeline scan: `per_character : BTreeMap<char, BTreeMap<time, loc>>`. -/
abbrev PerChar : Type := List (String × List (String × String))

/-- Lookup through both levels of the nested map. -/
def lookup2 (m : PerChar) (ch t : String) : Option String :=
  alookup ((alookup m ch).getD []) t

/-- The body of `for ch in ev.characters`: `entry(ch).or_default()` then
either compare against the recorded location or record a new one. -/
def timelineChar (timeKey loc : String) (acc : PerChar × List String)
    (ch : String) : PerChar × List String :=
  let m := acc.1
  let conflicts := acc.2
  let byTime := (alookup m ch).getD []
  match alookup byTime timeKey with
  | some prevLoc =>
    if trimS loc ≠ "" ∧ prevLoc ≠ loc then
      (aset m ch byTime, conflicts ++ [tlMsg ch timeKey prevLoc loc])
    else (aset m ch byTime, conflicts)
  | none =>
    if trimS loc ≠ "" then (aset m ch (aset byTime timeKey loc), conflicts)
    else (aset m ch byTime, conflicts)

/-- The body of `for ev in combined` in the timeline scan. -/
def timelineStep (acc : PerChar × List String) (e : Event) :
    PerChar × List String :=
  if trimS e.time = "" then acc
  else if e.characters = [] then acc
  else e.characters.foldl (timelineChar e.time e.location) acc

/-- All timeline conflicts of the combined event list, in scan order. -/
def timelineConflicts (evs : List Event) : List String :=
  (evs.foldl timelineStep ([], [])).2

/-- `validate_outline`'s decision on the combined event list: `Ok` iff no
conflict of either kind was collected, otherwise all conflict lines joined
with newlines (the scans never stop at the first conflict). -/
def outlineValidateEvents (evs : List Event) : Except String Unit :=
  let conflicts := dupConflicts evs ++ timelineConflicts evs
  if conflicts = [] then .ok () else .error (String.intercalate "\n" conflicts)

/-! ### Specification-level restatements (from the claims' wording)

These definitions follow the specification sentences, not the code; the
theorems below prove the scans equal to them.
-/

/-- Index (0-based) of the most recent event in `pre` carrying id `id`. -/
def lastIdxOf : List Event → String → Option Nat
  | [], _ => none
  | e :: rest, id =>
    match lastIdxOf rest id with
    | some j => some (j + 1)
    | none => if e.id = id then some 0 else none

/-- Spec-side duplicate-id conflicts: scanning the list in order, every
event whose non-blank id was already seen yields one conflict naming the
most recent previous position and the current position, both 1-based. -/
def specDupFrom : List Event → List Event → List String
  | _, [] => []
  | pre, e :: rest =>
    (if trimS e.id ≠ "" ∧ (lastIdxOf pre e.id).isSome then
      [dupMsg e.id ((lastIdxOf pre e.id).getD 0 + 1) (pre.length + 1)]
    else []) ++ specDupFrom (pre ++ [e]) rest

/-- Spec-side duplicate-id conflicts of a whole list. -/
def specDupConflicts (evs : List Event) : List String := specDupFrom [] evs

/-- The first event of the list that places character `ch` at time `t`:
non-blank time, `ch` among its characters, exactly that time string, and a
non-blank location.  Its location is what the claims call "the recorded
location" for the pair `(ch, t)`. -/
def firstLoc : List Event → String → String → Option String
  | [], _, _ => none
  | e :: rest, ch, t =>
    if trimS e.time ≠ "" ∧ ch ∈ e.characters ∧ e.time = t ∧ trimS e.location ≠ ""
    then some e.location
    else firstLoc rest ch t

/-- Spec-side conflicts contributed by one event, given the events before
it: for each of its characters (in order), if a location is already
recorded for `(ch, time)` among the earlier events and this event carries a
different non-blank location, one conflict line is emitted. -/
def specEventConflicts (pre : List Event) (e : Event) : List String :=
  if trimS e.time = "" then []
  else
    e.characters.filterMap fun ch =>
      match firstLoc pre ch e.time with
      | some prev =>
        if trimS e.location ≠ "" ∧ prev ≠ e.location then
          some (tlMsg ch e.time prev e.location)
        else none
      | none => none

/-- Spec-side timeline conflicts: fold over the list, each event checked
against the events strictly before it. -/
def specTimeline : List Event → List Event → List String
  | _, [] => []
  | pre, e :: rest => specEventConflicts pre e ++ specTimeline (pre ++ [e]) rest

/-- Spec-side timeline conflicts of a whole list. -/
def specTimelineConflicts (evs : List Event) : List String := specTimeline [] evs

/-! ### Equivalence of the duplicate-id scan with its specification -/

/-! ### Equivalence of the timeline scan with its specification -/

/-- The intermediate contents of the nested timeline map while the
characters of one event are being processed: earlier events' recordings,
plus this event's own location for the characters already handled (when
nothing was recorded for them and the location is non-blank). -/
def auxLoc (pre : List Event) (e : Event) (done : List String)
    (ch t : String) : Option String :=
  match firstLoc pre ch t with
  | some l => some l
  | none =>
    if t = e.time ∧ ch ∈ done ∧ trimS e.location ≠ "" then some e.location
    else none

/-! ## `update_concept_index` (commands.rs lines 1161-1210)

The Rust function loads the persisted index (default on a missing or
unparsable file), hashes the new content with blake3, bumps the global
revision with `saturating_add(1)` and upserts the entry only when the path
is new or its stored hash differs, then rewrites the whole index file.
The model below threads the loaded index value (persistence is a
deterministic serialisation of that value, so byte-level file comparisons
between a state and itself reduce to value equality; `hash` and `now`
stand for `blake3::hash(..).to_hex()` and the epoch-seconds clock). -/

structure ConceptFileInfo where
  hash : String
  revision : Nat
  updated_at : String
deriving DecidableEq

structure ConceptIndex where
  revision : Nat := 0
  updated_at : String := ""
  files : List (String × ConceptFileInfo) := []
deriving DecidableEq

/-- `u64::MAX`. -/
def u64Max : Nat := 18446744073709551615

/-- `u64::saturating_add(1)` (on the representable range `n ≤ u64Max`;
written so that it is also monotone outside it). -/
def satAdd1 (n : Nat) : Nat := if n < u64Max then n + 1 else n

/-- One `update_concept_index` call on a loaded index value. -/
def conceptUpdate (hash : String → String)
    (now relPath content : String) (idx : ConceptIndex) : ConceptIndex :=
  let h := hash content
  let changed : Bool :=
    match alookup idx.files relPath with
    | some f => if f.hash = h then false else true
    | none => true
  if changed then
    let rev := satAdd1 idx.revision
    { revision := rev, updated_at := now,
      files := aset idx.files relPath ⟨h, rev, now⟩ }
  else idx

/-- A sequence of `update_concept_index` calls `(now, rel_path, content)`. -/
def applyUpdates (hash : String → String) :
    List (String × String × String) → ConceptIndex → ConceptIndex
  | [], idx => idx
  | (now, relPath, content) :: rest, idx =>
    applyUpdates hash rest (conceptUpdate hash now relPath content idx)

/-- A concrete loaded index used by the C8 witness. -/
def cIdx0 : ConceptIndex :=
  { revision := 3, updated_at := "1",
    files := [("a.md", { hash := "v", revision := 3, updated_at := "1" })] }

/-- A concrete serialisation function used by the C8 witness. -/
def cSer0 (i : ConceptIndex) : String :=
  String.intercalate "," [toString i.revision, i.updated_at]

/-! ## JSON values (`serde_json::Value`), as consumed by the runtime -/

/-- The fragment of `serde_json::Value` the runtime observes.  Numbers are
modelled as integers (`as_u64` is the only numeric accessor used). -/
inductive J where
  | null
  | jbool (b : Bool)
  | jnum (n : Int)
  | jstr (s : String)
  | jarr (xs : List J)
  | jobj (fields : List (String × J))

/-- `Value::get(key)`: member lookup on objects, `None` otherwise. -/
def jGet (j : J) (key : String) : Option J :=
  match j with
  | J.jobj fields => alookup fields key
  | _ => none

/-- `Value::as_str`. -/
def jAsStr : J → Option String
  | J.jstr s => some s
  | _ => none

/-- `Value::as_u64`. -/
def jAsU64 : J → Option Nat
  | J.jnum n => if 0 ≤ n ∧ n ≤ (u64Max : Int) then some n.toNat else none
  | _ => none

/-! ## `parse_tool_call` (agent_system.rs lines 347-365)

```rust
pub fn parse_tool_call(text: &str) -> Option<ParsedToolCall> {
  let mut tool: Option<String> = None;
  let mut input: Option<String> = None;
  for line in text.lines() {
    let t = line.trim();
    if t.to_ascii_uppercase().starts_with("ACTION:") {
      tool = Some(t.splitn(2, ':').nth(1)?.trim().to_string());
      continue;
    }
    if t.to_ascii_uppercase().starts_with("INPUT:") {
      input = Some(t.splitn(2, ':').nth(1)?.trim().to_string());
      continue;
    }
  }
  let tool = tool?;
  let input = input?;
  let args: Value = serde_json::from_str(&input).ok()
    .or_else(|| Some(serde_json::json!({ "raw": input })))?;
  Some(ParsedToolCall { tool, args })
}
```

Lines are modelled as `splitCh '\n'`; compared with Rust `str::lines` this
inserts one final empty line when the text ends in a newline, which no
marker test matches, and leaves a trailing `\r` on CRLF lines, which
`trim` removes before every test.  The JSON parser is the opaque `jp`.
-/

structure ParsedToolCall where
  tool : String
  args : J

/-- `splitn(2, ':').nth(1)`: everything after the first colon, if any. -/
def afterColon (t : List Char) : Option (List Char) :=
  match splitCh ':' t with
  | [] => none
  | [_] => none
  | _ :: rest => some (joinCh ':' rest)

/-- The characters of the `ACTION:` marker. -/
def actKey : List Char := ['A', 'C', 'T', 'I', 'O', 'N', ':']

/-- The characters of the `INPUT:` marker. -/
def inpKey : List Char := ['I', 'N', 'P', 'U', 'T', ':']

/-- The line test `line.trim().to_ascii_uppercase().starts_with("ACTION:")`. -/
def isActLine (l : List Char) : Bool := startsL actKey ((trimL l).map chUpper)

/-- The line test `line.trim().to_ascii_uppercase().starts_with("INPUT:")`. -/
def isInpLine (l : List Char) : Bool := startsL inpKey ((trimL l).map chUpper)

/-- The `for line in text.lines()` loop, accumulating the last `ACTION:`
and `INPUT:` payloads; the `?` inside the loop aborts the whole parse
(outer `none`) if a marker line had no colon. -/
def scanLines : List (List Char) → Option (List Char) → Option (List Char) →
    Option (Option (List Char) × Option (List Char))
  | [], tool, inp => some (tool, inp)
  | l :: rest, tool, inp =>
    let t := trimL l
    if isActLine l then
      match afterColon t with
      | none => none
      | some r => scanLines rest (some (trimL r)) inp
    else if isInpLine l then
      match afterColon t with
      | none => none
      | some r => scanLines rest tool (some (trimL r))
    else scanLines rest tool inp

/-- `parse_tool_call` from agent_system.rs, with the JSON parser `jp`
passed in for `serde_json::from_str`. -/
def parse_tool_call (jp : String → Option J) (text : String) :
    Option ParsedToolCall :=
  match scanLines (splitCh '\n' text.data) none none with
  | none => none
  | some (toolOpt, inpOpt) =>
    match toolOpt, inpOpt with
    | some tl, some ip =>
      let input : String := ⟨ip⟩
      let args : J :=
        match jp input with
        | some v => v
        | none => J.jobj [("raw", J.jstr input)]
      some { tool := ⟨tl⟩, args := args }
    | _, _ => none

/-- The last line of `ls` satisfying `p` (the "last marker wins" rule). -/
def lastSuch (p : List Char → Bool) (ls : List (List Char)) :
    Option (List Char) :=
  (ls.filter p).getLast?

/-- What a marker line contributes: the text after its first colon,
trimmed (applied to the already-trimmed line). -/
def extractAfterColon (l : List Char) : List Char :=
  trimL ((afterColon (trimL l)).getD [])

/-! ### The marker tests guarantee a colon, so the `?` aborts never fire -/

/-! ### The scan keeps the last marker line of each kind -/

/-! ## `MemoryStore` (agent_system.rs lines 46-113) -/

structure MemoryItem where
  key : String
  value : String
deriving DecidableEq, Inhabited

/-- `MemoryStore::upsert`: replace the value in place on an exact key
match, else append at the end. -/
def memUpsert : List MemoryItem → String → String → List MemoryItem
  | [], k, v => [{ key := k, value := v }]
  | it :: rest, k, v =>
    if it.key = k then { key := it.key, value := v } :: rest
    else it :: memUpsert rest k v

/-- `MemoryStore::search`: case-insensitive substring match on key or
value, at most `limit` hits in store order. -/
def memSearch (mem : List MemoryItem) (q : String) (limit : Nat) :
    List MemoryItem :=
  (mem.filter (fun it =>
    containsSub (lowerS it.key).data (lowerS q).data ||
    containsSub (lowerS it.value).data (lowerS q).data)).take limit

/-- `MemoryStore::render`: up to `limit` items as `- key: value` lines,
with an overall trim. -/
def memRender (mem : List MemoryItem) (limit : Nat) : String :=
  trimS (String.join ((mem.take limit).map
    (fun it => "- " ++ trimS it.key ++ ": " ++ trimS it.value ++ "\n")))

/-! ## `ToolRegistry` and the ReAct loop (agent_system.rs lines 11-44, 122-339)

The registry is a name-keyed map of handlers.  For the loop-level
properties the handlers are abstracted as pure functions from the JSON
arguments to a JSON result or error (the write tool's filesystem effects
are modelled separately below); `call` yields `unknown tool: <name>` for an
unregistered name.  The model-invocation capability, the JSON printer used
for observations, and the outcome of `MemoryStore::save` are the opaque
parameters `model`, `jser` and `saveR`.  Wall-clock performance counters
(`model_ms`, `tool_ms`) are not modellable and stay at their initial value;
`steps` is counted exactly as the loop does. -/

structure ChatMessage where
  role : String
  content : String
deriving DecidableEq, Inhabited

abbrev Registry : Type := List (String × (J → Except String J))

/-- `ToolRegistry::call`. -/
def regCall (reg : Registry) (name : String) (args : J) : Except String J :=
  match alookup reg name with
  | none => .error ("unknown tool: " ++ name)
  | some f => f args

/-- Insertion into a sorted list of names (for `Vec::sort`). -/
def insSortedStr (s : String) : List String → List String
  | [] => [s]
  | t :: rest => if s < t then s :: t :: rest else t :: insSortedStr s rest

/-- `Vec::sort` on tool names. -/
def sortStr : List String → List String
  | [] => []
  | x :: xs => insSortedStr x (sortStr xs)

/-- `ToolRegistry::list`: the registered names, sorted. -/
def regList (reg : Registry) : List String := sortStr (reg.map Prod.fst)

/-- `AgentRuntime::tools`: the registry list plus the two intercepted
memory tools, sorted. -/
def runtimeTools (reg : Registry) : List String :=
  sortStr (regList reg ++ ["memory_upsert", "memory_search"])

structure AgentPerf where
  steps : Nat := 0
  model_ms : Nat := 0
  tool_ms : Nat := 0
deriving DecidableEq

/-- The system preamble built by `run_react` (the `format!` call). -/
def reactPrompt (sysPrompt : String) (toolList : List String) : String :=
  trimS sysPrompt ++ "\n\n可用工具：" ++ String.intercalate ", " toolList ++
    "\n\n当你需要调用工具时，严格使用三行格式：\\nACTION: tool_name\\nINPUT: \x7b...json...\x7d\\n然后等待 OBSERVATION。若无需工具，直接给出最终回答。\n\n文件系统规则：\n1) 所有 path 必须是相对路径，禁止绝对路径与 ..。\n2) 写文件不会自动创建父目录；若目录不存在，先用 fs_exists 检查，再用 fs_create_dir 创建。\n3) concept/、outline/、stories/ 下仅允许 .md 文件。"

/-- The tool-call interception inside the loop body (`let result = if ...`):
`memory_upsert` and `memory_search` are handled by the runtime, everything
else goes to the registry.  The OUTER `Except` is the loop-level abort
caused by the `?` on `memory_search`'s missing `query` argument; the inner
one is the observation fed back to the model.  `MemoryStore::save`'s
outcome `saveR` is bound and discarded exactly like `let _ = save()`. -/
def dispatchTool (reg : Registry) (saveR : Except String Unit)
    (mem : List MemoryItem) (call : ParsedToolCall) :
    Except String (Except String J × List MemoryItem) :=
  if call.tool = "memory_upsert" then
    let key : Except String String :=
      match (jGet call.args "key").bind jAsStr with
      | none => .error "missing args.key"
      | some s => if trimS s = "" then .error "empty args.key" else .ok s
    let value : Except String String :=
      match (jGet call.args "value").bind jAsStr with
      | none => .error "missing args.value"
      | some s => .ok s
    match key, value with
    | .ok k, .ok v =>
      let mem' := memUpsert mem k v
      let _ := saveR
      .ok (.ok (J.jobj [("ok", J.jbool true)]), mem')
    | .error e, _ => .ok (.error e, mem)
    | _, .error e => .ok (.error e, mem)
  else if call.tool = "memory_search" then
    match (jGet call.args "query").bind jAsStr with
    | none => .error "missing args.query"
    | some q =>
      let limit := ((jGet call.args "limit").bind jAsU64).getD 10
      .ok (.ok (J.jarr ((memSearch mem q limit).map
        (fun it => J.jobj [("key", J.jstr it.key), ("value", J.jstr it.value)]))),
        mem)
  else .ok (regCall reg call.tool call.args, mem)

/-- The observation value: the tool result, or `error: message`. -/
def obsOf (result : Except String J) : J :=
  match result with
  | .ok v => v
  | .error e => J.jobj [("error", J.jstr e)]

/-- `messages.iter().rev().find(role == "assistant").map(content)`. -/
def lastAssistant (msgs : List ChatMessage) : Option String :=
  (msgs.reverse.find? (fun m => m.role == "assistant")).map
    (fun m => m.content)

/-- The `loop` of `run_react`, fuelled by the remaining step budget.  At
fuel 0 it returns the most recent assistant message (or `""`); otherwise
it invokes the model (propagating its error), parses at most one tool
call, executes it, appends the assistant action and the observation, and
recurses.  The transcript and memory are returned for observability. -/
def runReactAux (reg : Registry) (jp : String → Option J) (jser : J → String)
    (saveR : Except String Unit)
    (model : List ChatMessage → Except String String) :
    Nat → List ChatMessage → List MemoryItem → AgentPerf →
    Except String (String × AgentPerf × List ChatMessage × List MemoryItem)
  | 0, messages, mem, perf =>
    .ok ((lastAssistant messages).getD "", perf, messages, mem)
  | fuel + 1, messages, mem, perf =>
    match model messages with
    | .error e => .error e
    | .ok out =>
      let perf1 : AgentPerf := { perf with steps := perf.steps + 1 }
      match parse_tool_call jp out with
      | some call =>
        match dispatchTool reg saveR mem call with
        | .error e => .error e
        | .ok (result, mem') =>
          let obsText := jser (obsOf result)
          runReactAux reg jp jser saveR model fuel
            (messages ++ [{ role := "assistant", content := out },
              { role := "user", content := "OBSERVATION:\n" ++ obsText }])
            mem' perf1
      | none => .ok (out, perf1, messages, mem)

/-- `let max_steps = 6u32`. -/
def maxSteps : Nat := 6

/-- The initial transcript: the composed system message, then the caller's
conversation history. -/
def initialMessages (reg : Registry) (mem : List MemoryItem)
    (base : List ChatMessage) (sysPrompt : String) : List ChatMessage :=
  let memoryText := memRender mem 50
  let prompt := reactPrompt sysPrompt (runtimeTools reg)
  { role := "system",
    content := if memoryText = "" then prompt
      else prompt ++ "\n\n长期记忆：\n" ++ memoryText } :: base

/-- `AgentRuntime::run_react`, returning the final text and counters. -/
def run_react (reg : Registry) (jp : String → Option J) (jser : J → String)
    (saveR : Except String Unit)
    (model : List ChatMessage → Except String String)
    (base : List ChatMessage) (sysPrompt : String) (mem : List MemoryItem) :
    Except String (String × AgentPerf) :=
  (runReactAux reg jp jser saveR model maxSteps
      (initialMessages reg mem base sysPrompt) mem
      { steps := 0, model_ms := 0, tool_ms := 0 }).map
    (fun r => (r.1, r.2.1))

/-! ### Step equations for the loop -/

/-- The counterexample stub: a model that always answers with a parsable
`memory_search` call whose arguments carry no `query` string. -/
def c5Model : List ChatMessage → Except String String :=
  fun _ => .ok "ACTION: memory_search\nINPUT: x"

/-- A JSON parser stub for the counterexample (parses everything to an
empty object, the way `serde_json` parses an empty JSON object). -/
def c5Jp : String → Option J := fun _ => some (J.jobj [])

/-- The witness stub for the amended C5: a model that always calls an
unregistered tool with a parsable numeric argument. -/
def c5wModel : List ChatMessage → Except String String :=
  fun _ => .ok "ACTION: nop\nINPUT: 1"

/-- The JSON parser stub for the amended C5 witness. -/
def c5wJp : String → Option J := fun _ => some (J.jnum 1)

/-! ## `validate_outline` JSON entry and the `fs_write_text` tool handler
(agent_system.rs lines 199-234) -/

/-- A JSON array of strings (`Vec<String>`); any non-string element fails. -/
def decodeStrList (j : J) : Option (List String) :=
  match j with
  | J.jarr xs => xs.mapM jAsStr
  | _ => none

/-- Deserialise one `Event` (every field `#[serde(default)]`: missing
fields default, present fields of the wrong type fail; unknown fields are
ignored as serde does). -/
def decodeEvent (j : J) : Option Event :=
  match j with
  | J.jobj fields => do
    let id ← match alookup fields "id" with
      | none => some ""
      | some v => jAsStr v
    let time ← match alookup fields "time" with
      | none => some ""
      | some v => jAsStr v
    let location ← match alookup fields "location" with
      | none => some ""
      | some v => jAsStr v
    let characters ← match alookup fields "characters" with
      | none => some []
      | some v => decodeStrList v
    let description ← match alookup fields "description" with
      | none => some ""
      | some v => jAsStr v
    some { id := id, time := time, location := location,
           characters := characters, description := description }
  | _ => none

/-- Deserialise `Outline` (`#[serde(default)] events`). -/
def decodeOutline (j : J) : Option (List Event) :=
  match j with
  | J.jobj fields =>
    match alookup fields "events" with
    | none => some []
    | some (J.jarr xs) => xs.mapM decodeEvent
    | some _ => none
  | _ => none

/-- `validate_outline` on its JSON string arguments: a blank or unparsable
existing payload becomes the empty outline, an unparsable incoming payload
is a hard error (the Rust message carries serde's description after the
fixed prefix; only the prefix is modelled), then the combined list
`existing ++ incoming` is scanned. -/
def validateOutline (jp : String → Option J)
    (existing_json new_json : String) : Except String Unit :=
  let existing : List Event :=
    if trimS existing_json = "" then []
    else ((jp existing_json).bind decodeOutline).getD []
  match (jp new_json).bind decodeOutline with
  | none => .error "outline json invalid"
  | some incoming => outlineValidateEvents (existing ++ incoming)

/-- `path.replace('\\', "/")`. -/
def backslashNorm (path : String) : String :=
  ⟨path.data.map (fun c => if c = '\\' then '/' else c)⟩

/-- A path as the filesystem resolves it: non-empty, non-`.` slash
segments (`..` cannot reach this point, `validate_relative_path` rejects
it first). -/
def normSegs (s : String) : List String :=
  ((splitCh '/' s.data).filter (fun t => t ≠ [] ∧ t ≠ ['.'])).map
    (fun t => (⟨t⟩ : String))

/-- The observable filesystem: file contents and existing directories,
both keyed by resolved path segments (the workspace root is `[]` and
always exists). -/
structure FS where
  files : List (List String × String) := []
  dirs : List (List String) := []
deriving DecidableEq

/-- File lookup. -/
def flookup : List (List String × String) → List String → Option String
  | [], _ => none
  | (k, v) :: rest, key => if k = key then some v else flookup rest key

/-- File write (insert or overwrite). -/
def fset : List (List String × String) → List String → String →
    List (List String × String)
  | [], key, v => [(key, v)]
  | (k, w) :: rest, key, v =>
    if k = key then (k, v) :: rest else (k, w) :: fset rest key v

/-- `target.parent()` exists: the workspace root, or a recorded directory. -/
def parentExists (fs : FS) (target : List String) : Bool :=
  target.dropLast = [] || decide (target.dropLast ∈ fs.dirs)

/-- All non-empty prefixes of a directory path. -/
def prefixesOf (d : List String) : List (List String) :=
  (List.range d.length).map (fun i => d.take (i + 1))

/-- Record one directory if absent. -/
def addDir (dirs : List (List String)) (d : List String) :
    List (List String) :=
  if d ∈ dirs then dirs else dirs ++ [d]

/-- `fs::create_dir_all`: record the directory and all its ancestors. -/
def addDirAll (dirs : List (List String)) (d : List String) :
    List (List String) :=
  (prefixesOf d).foldl addDir dirs

/-- Strict deserialisation of one stored `ConceptFileInfo` (no serde
defaults on this struct: every field is required). -/
def decodeConceptFileInfo (j : J) : Option ConceptFileInfo :=
  match j with
  | J.jobj fields => do
    let h ← (alookup fields "hash").bind jAsStr
    let rev ← (alookup fields "revision").bind jAsU64
    let up ← (alookup fields "updated_at").bind jAsStr
    some { hash := h, revision := rev, updated_at := up }
  | _ => none

/-- Strict deserialisation of a stored `ConceptIndex`; any failure makes
the caller fall back to the default index (`unwrap_or_default`). -/
def decodeConceptIndex (j : J) : Option ConceptIndex :=
  match j with
  | J.jobj fields => do
    let rev ← (alookup fields "revision").bind jAsU64
    let up ← (alookup fields "updated_at").bind jAsStr
    let files ← match alookup fields "files" with
      | some (J.jobj fobj) =>
        fobj.mapM (fun kv => (decodeConceptFileInfo kv.2).map
          (fun i => (kv.1, i)))
      | _ => none
    some { revision := rev, updated_at := up, files := files }
  | _ => none

/-- The index file as written back to disk.  The exact byte layout of
`serde_json::to_string_pretty` is not reproduced; the verified properties
only use that serialisation is a deterministic function of the value. -/
def serializeIndex (i : ConceptIndex) : String :=
  String.intercalate "|" (toString i.revision :: i.updated_at ::
    i.files.map (fun kv => kv.1 ++ ":" ++ kv.2.hash ++ ":" ++
      toString kv.2.revision ++ ":" ++ kv.2.updated_at))

/-- The `fs_write_text` tool handler over the filesystem model, returning
the observation and the resulting filesystem.  `jp` stands for
`serde_json::from_str`, `hash` for `blake3::hash(..).to_hex()`, `now` for
the epoch-seconds clock. -/
def fs_write_text (jp : String → Option J) (hash : String → String)
    (now : String) (fs : FS) (args : J) : Except String J × FS :=
  match (jGet args "path").bind jAsStr with
  | none => (.error "missing args.path", fs)
  | some path =>
    let text := ((jGet args "text").bind jAsStr).getD ""
    if trimS path = "" then (.error "empty path", fs)
    else
      let relNorm := backslashNorm path
      if (startsS relNorm "concept/" || startsS relNorm "outline/" ||
          startsS relNorm "stories/") && !(endsS (lowerS relNorm) ".md") then
        (.error "concept/outline/stories 目录仅允许写入 .md 文件", fs)
      else
        match validate_relative_path path with
        | .error e => (.error e, fs)
        | .ok _ =>
          let target := normSegs path
          let outlineCheck : Except String Unit :=
            if relNorm = ".novel/.cache/outline.json" then
              validateOutline jp ((flookup fs.files target).getD "") text
            else .ok ()
          match outlineCheck with
          | .error e => (.error e, fs)
          | .ok _ =>
            if parentExists fs target = false then
              (.error "parent directory does not exist; create it first", fs)
            else
              let fs1 : FS := { fs with files := fset fs.files target text }
              if startsS relNorm "concept/" && endsS (lowerS relNorm) ".md" then
                let idxPath := normSegs ".novel/.cache/concept_index.json"
                let idx0 : ConceptIndex :=
                  match flookup fs1.files idxPath with
                  | some raw => ((jp raw).bind decodeConceptIndex).getD {}
                  | none => {}
                let idx1 := conceptUpdate hash now relNorm text idx0
                let fs2 : FS :=
                  { files := fset fs1.files idxPath (serializeIndex idx1),
                    dirs := addDirAll fs1.dirs idxPath.dropLast }
                (.ok (J.jobj [("ok", J.jbool true)]), fs2)
              else (.ok (J.jobj [("ok", J.jbool true)]), fs1)

/-! ## Theorems -/

theorem alookup_aset {α : Type} (m : List (String × α)) (k : String) (v : α)
    (key : String) :
    alookup (aset m k v) key = if k = key then some v else alookup m key := by
  induction m with
  | nil =>
    by_cases h : k = key <;> simp [aset, alookup, h]
  | cons hd tl ih =>
    obtain ⟨k0, w⟩ := hd
    by_cases h0 : k0 = k
    · subst h0
      by_cases h : k0 = key <;> simp [aset, alookup, h]
    · by_cases h : k0 = key
      · subst h
        have hkk : ¬(k = k0) := fun he => h0 he.symm
        simp [aset, alookup, h0, hkk]
      · simp [aset, alookup, h0, h, ih]

theorem checkComps_eq_true_iff (cs : List PComp) :
    checkComps cs = true ↔ ∀ c ∈ cs, c ≠ PComp.parentC ∧ c ≠ PComp.rootC := by
  induction cs with
  | nil => simp [checkComps]
  | cons hd tl ih =>
    cases hd <;> simp [checkComps, ih]

/-- **C3.** `validate_relative_path` accepts exactly the inputs that are not
absolute and whose components are all `Normal` or `CurDir` (no parent
reference, no root); accepted paths are returned unchanged, everything else
is rejected with an error. -/
theorem c3_validate_relative_path (s : String) :
    (validate_relative_path s = .ok s ↔
      (isAbsS s = false ∧
        ∀ c ∈ componentsOf s, c ≠ PComp.parentC ∧ c ≠ PComp.rootC)) ∧
    ((isAbsS s = true ∨ ∃ c ∈ componentsOf s,
        c = PComp.parentC ∨ c = PComp.rootC) →
      ∃ msg, validate_relative_path s = .error msg) := by
  constructor
  · constructor
    · intro h
      by_cases habs : isAbsS s
      · simp [validate_relative_path, habs] at h
      · refine ⟨by simp [habs], ?_⟩
        rw [← checkComps_eq_true_iff]
        by_cases hchk : checkComps (componentsOf s)
        · exact hchk
        · simp [validate_relative_path, habs, hchk] at h
    · rintro ⟨habs, hall⟩
      have hchk : checkComps (componentsOf s) = true :=
        (checkComps_eq_true_iff _).mpr hall
      simp [validate_relative_path, habs, hchk]
  · intro h
    rcases h with habs | ⟨c, hc, hbad⟩
    · exact ⟨"absolute path is not allowed", by simp [validate_relative_path, habs]⟩
    · by_cases habs : isAbsS s
      · exact ⟨"absolute path is not allowed",
          by simp [validate_relative_path, habs]⟩
      · have hchk : checkComps (componentsOf s) = false := by
          by_contra hne
          have htrue : checkComps (componentsOf s) = true := by
            revert hne; cases checkComps (componentsOf s) <;> simp
          have := (checkComps_eq_true_iff _).mp htrue c hc
          rcases hbad with h1 | h1 <;> simp [h1] at this
        exact ⟨"invalid relative path",
          by simp [validate_relative_path, habs, hchk]⟩

/-- Witness for C3 at a concrete rejected input. -/
theorem c3_witness :
    ((isAbsS "a/../b" = true ∨ ∃ c ∈ componentsOf "a/../b",
        c = PComp.parentC ∨ c = PComp.rootC) ∧
      ∃ msg, validate_relative_path "a/../b" = .error msg) ∧
    validate_relative_path "./stories/ch1.md" = .ok "./stories/ch1.md" := by
  refine ⟨⟨?_, ?_⟩, ?_⟩
  · exact Or.inr (by decide)
  · exact (c3_validate_relative_path "a/../b").2 (Or.inr (by decide))
  · exact ((c3_validate_relative_path "./stories/ch1.md").1).mpr (by decide)

theorem lastIdxOf_append (pre : List Event) (e : Event) (id : String) :
    lastIdxOf (pre ++ [e]) id =
      if e.id = id then some pre.length else lastIdxOf pre id := by
  induction pre with
  | nil => by_cases h : e.id = id <;> simp [lastIdxOf, h]
  | cons x rest ih =>
    have hstep : lastIdxOf ((x :: rest) ++ [e]) id =
        match lastIdxOf (rest ++ [e]) id with
        | some j => some (j + 1)
        | none => if x.id = id then some 0 else none := rfl
    rw [hstep, ih]
    by_cases h : e.id = id
    · simp [h]
    · rw [if_neg h, if_neg h]
      rfl

theorem dupScanGo_spec :
    ∀ (rest pre : List Event) (idMap : List (String × Nat)),
      (∀ id, trimS id ≠ "" → alookup idMap id = lastIdxOf pre id) →
      dupScanGo rest pre.length idMap = specDupFrom pre rest := by
  intro rest
  induction rest with
  | nil => intro pre idMap _; rfl
  | cons e rest' ih =>
    intro pre idMap hinv
    have hlen : (pre ++ [e]).length = pre.length + 1 := by simp
    by_cases hid : trimS e.id = ""
    · have hinv' : ∀ id, trimS id ≠ "" →
          alookup idMap id = lastIdxOf (pre ++ [e]) id := by
        intro id hne
        rw [lastIdxOf_append]
        have : ¬(e.id = id) := by
          intro he; exact hne (he ▸ hid)
        rw [if_neg this]
        exact hinv id hne
      have := ih (pre ++ [e]) idMap hinv'
      rw [hlen] at this
      simp [dupScanGo, specDupFrom, hid, this]
    · have hlk := hinv e.id hid
      have hinv' : ∀ id, trimS id ≠ "" →
          alookup (aset idMap e.id pre.length) id = lastIdxOf (pre ++ [e]) id := by
        intro id hne
        rw [alookup_aset, lastIdxOf_append]
        exact if_congr Iff.rfl rfl (hinv id hne)
      have hrec := ih (pre ++ [e]) (aset idMap e.id pre.length) hinv'
      rw [hlen] at hrec
      cases hprev : lastIdxOf pre e.id with
      | some prev =>
        rw [hprev] at hlk
        simp [dupScanGo, specDupFrom, hid, hlk, hprev, hrec]
      | none =>
        rw [hprev] at hlk
        simp [dupScanGo, specDupFrom, hid, hlk, hprev, hrec]

theorem lookup2_aset_same (m : PerChar) (ch ch' t : String) :
    lookup2 (aset m ch ((alookup m ch).getD [])) ch' t = lookup2 m ch' t := by
  unfold lookup2
  rw [alookup_aset]
  by_cases h : ch = ch'
  · subst h; simp
  · simp [h]

theorem lookup2_aset_insert (m : PerChar) (ch ch' tk loc t : String) :
    lookup2 (aset m ch (aset ((alookup m ch).getD []) tk loc)) ch' t =
      if ch = ch' ∧ tk = t then some loc else lookup2 m ch' t := by
  unfold lookup2
  rw [alookup_aset]
  by_cases h : ch = ch'
  · subst h
    simp only [if_true, true_and, Option.getD_some]
    rw [alookup_aset]
  · simp [h]

theorem auxLoc_snoc (pre : List Event) (e : Event) (done : List String)
    (ch ch' t : String)
    (h : firstLoc pre ch e.time = none → trimS e.location ≠ "" → ch ∈ done) :
    auxLoc pre e (done ++ [ch]) ch' t = auxLoc pre e done ch' t := by
  unfold auxLoc
  cases hf : firstLoc pre ch' t with
  | some l => rfl
  | none =>
    refine if_congr ?_ rfl rfl
    constructor
    · rintro ⟨ht, hmem, hloc⟩
      refine ⟨ht, ?_, hloc⟩
      rcases List.mem_append.mp hmem with hd | hsingle
      · exact hd
      · have hch : ch' = ch := by simpa using hsingle
        subst hch
        subst ht
        exact h hf hloc
    · rintro ⟨ht, hmem, hloc⟩
      exact ⟨ht, List.mem_append.mpr (Or.inl hmem), hloc⟩

theorem auxLoc_snoc_ne (pre : List Event) (e : Event) (done : List String)
    (ch ch' t : String) (h : ¬(ch = ch' ∧ e.time = t)) :
    auxLoc pre e (done ++ [ch]) ch' t = auxLoc pre e done ch' t := by
  unfold auxLoc
  cases hf : firstLoc pre ch' t with
  | some l => rfl
  | none =>
    refine if_congr ?_ rfl rfl
    constructor
    · rintro ⟨ht, hmem, hloc⟩
      refine ⟨ht, ?_, hloc⟩
      rcases List.mem_append.mp hmem with hd | hs
      · exact hd
      · have hch : ch' = ch := by simpa using hs
        exact absurd ⟨hch.symm, ht.symm⟩ h
    · rintro ⟨ht, hmem, hloc⟩
      exact ⟨ht, List.mem_append.mpr (Or.inl hmem), hloc⟩

theorem timelineChar_foldl (pre : List Event) (e : Event)
    (_hT : trimS e.time ≠ "") :
    ∀ (cs done : List String) (m : PerChar) (conf : List String),
      (∀ ch t, lookup2 m ch t = auxLoc pre e done ch t) →
      ∃ m', cs.foldl (timelineChar e.time e.location) (m, conf) =
          (m', conf ++ cs.filterMap (fun ch =>
            match firstLoc pre ch e.time with
            | some prev =>
              if trimS e.location ≠ "" ∧ prev ≠ e.location then
                some (tlMsg ch e.time prev e.location)
              else none
            | none => none)) ∧
        ∀ ch t, lookup2 m' ch t = auxLoc pre e (done ++ cs) ch t := by
  intro cs
  induction cs with
  | nil =>
    intro done m conf hinv
    exact ⟨m, by simp, by simpa using hinv⟩
  | cons ch cs' ih =>
    intro done m conf hinv
    have hcur : alookup ((alookup m ch).getD []) e.time =
        auxLoc pre e done ch e.time := hinv ch e.time
    cases hfl : firstLoc pre ch e.time with
    | some prev =>
      have hsome : alookup ((alookup m ch).getD []) e.time = some prev := by
        rw [hcur]; unfold auxLoc; rw [hfl]
      have hstep : timelineChar e.time e.location (m, conf) ch =
          (aset m ch ((alookup m ch).getD []),
            if trimS e.location ≠ "" ∧ prev ≠ e.location then
              conf ++ [tlMsg ch e.time prev e.location] else conf) := by
        simp only [timelineChar, hsome]
        by_cases hc : trimS e.location ≠ "" ∧ prev ≠ e.location
        · rw [if_pos hc, if_pos hc]
        · rw [if_neg hc, if_neg hc]
      have hinv1 : ∀ ch' t,
          lookup2 (aset m ch ((alookup m ch).getD [])) ch' t =
            auxLoc pre e (done ++ [ch]) ch' t := by
        intro ch' t
        have hsn := auxLoc_snoc pre e done ch ch' t
          (fun hnone _ => by rw [hfl] at hnone; exact Option.noConfusion hnone)
        rw [lookup2_aset_same, hinv ch' t, ← hsn]
      obtain ⟨m', heq, hinv'⟩ := ih (done ++ [ch])
        (aset m ch ((alookup m ch).getD []))
        (if trimS e.location ≠ "" ∧ prev ≠ e.location then
          conf ++ [tlMsg ch e.time prev e.location] else conf) hinv1
      refine ⟨m', ?_, ?_⟩
      · rw [List.foldl_cons, hstep, heq]
        rw [List.filterMap_cons]
        by_cases hc : trimS e.location ≠ "" ∧ prev ≠ e.location
        · simp [hfl, hc]
        · simp [hfl, hc]
      · intro ch' t
        rw [hinv' ch' t]
        have hl3 : done ++ [ch] ++ cs' = done ++ ch :: cs' := by simp
        rw [hl3]
    | none =>
      have hnone0 : alookup ((alookup m ch).getD []) e.time =
          (if ch ∈ done ∧ trimS e.location ≠ "" then some e.location
           else none) := by
        rw [hcur]; unfold auxLoc; rw [hfl]; simp
      by_cases hd : ch ∈ done ∧ trimS e.location ≠ ""
      · -- already recorded by this same event for this character
        have hsome : alookup ((alookup m ch).getD []) e.time = some e.location := by
          rw [hnone0, if_pos hd]
        have hstep : timelineChar e.time e.location (m, conf) ch =
            (aset m ch ((alookup m ch).getD []), conf) := by
          simp only [timelineChar, hsome]
          have hc : ¬(trimS e.location ≠ "" ∧ e.location ≠ e.location) := by
            rintro ⟨_, hne⟩; exact hne rfl
          rw [if_neg hc]
        have hinv1 : ∀ ch' t,
            lookup2 (aset m ch ((alookup m ch).getD [])) ch' t =
              auxLoc pre e (done ++ [ch]) ch' t := by
          intro ch' t
          have hsn := auxLoc_snoc pre e done ch ch' t (fun _ _ => hd.1)
          rw [lookup2_aset_same, hinv ch' t, ← hsn]
        obtain ⟨m', heq, hinv'⟩ := ih (done ++ [ch])
          (aset m ch ((alookup m ch).getD [])) conf hinv1
        refine ⟨m', ?_, ?_⟩
        · rw [List.foldl_cons, hstep, heq, List.filterMap_cons]
          simp [hfl]
        · intro ch' t
          rw [hinv' ch' t]
          have hl3 : done ++ [ch] ++ cs' = done ++ ch :: cs' := by simp
          rw [hl3]
      · by_cases hl : trimS e.location ≠ ""
        · -- record the location for (ch, e.time)
          have hnone : alookup ((alookup m ch).getD []) e.time = none := by
            rw [hnone0, if_neg hd]
          have hstep : timelineChar e.time e.location (m, conf) ch =
              (aset m ch (aset ((alookup m ch).getD []) e.time e.location),
                conf) := by
            simp only [timelineChar, hnone]
            rw [if_pos hl]
          have hinv1 : ∀ ch' t,
              lookup2 (aset m ch (aset ((alookup m ch).getD []) e.time e.location)) ch' t =
                auxLoc pre e (done ++ [ch]) ch' t := by
            intro ch' t
            rw [lookup2_aset_insert]
            by_cases hcc : ch = ch' ∧ e.time = t
            · obtain ⟨h1, h2⟩ := hcc
              subst h1; subst h2
              rw [if_pos ⟨rfl, rfl⟩]
              unfold auxLoc
              rw [hfl]
              rw [if_pos ⟨rfl, List.mem_append.mpr (Or.inr (by simp)), hl⟩]
            · rw [if_neg hcc, hinv ch' t,
                ← auxLoc_snoc_ne pre e done ch ch' t hcc]
          obtain ⟨m', heq, hinv'⟩ := ih (done ++ [ch])
            (aset m ch (aset ((alookup m ch).getD []) e.time e.location))
            conf hinv1
          refine ⟨m', ?_, ?_⟩
          · rw [List.foldl_cons, hstep, heq, List.filterMap_cons]
            simp [hfl]
          · intro ch' t
            rw [hinv' ch' t]
            have hl3 : done ++ [ch] ++ cs' = done ++ ch :: cs' := by simp
            rw [hl3]
        · -- blank location: nothing recorded, nothing reported
          have hnone : alookup ((alookup m ch).getD []) e.time = none := by
            rw [hnone0, if_neg hd]
          have hstep : timelineChar e.time e.location (m, conf) ch =
              (aset m ch ((alookup m ch).getD []), conf) := by
            simp only [timelineChar, hnone]
            rw [if_neg hl]
          have hinv1 : ∀ ch' t,
              lookup2 (aset m ch ((alookup m ch).getD [])) ch' t =
                auxLoc pre e (done ++ [ch]) ch' t := by
            intro ch' t
            have hsn := auxLoc_snoc pre e done ch ch' t
              (fun _ hlo => absurd hlo hl)
            rw [lookup2_aset_same, hinv ch' t, ← hsn]
          obtain ⟨m', heq, hinv'⟩ := ih (done ++ [ch])
            (aset m ch ((alookup m ch).getD [])) conf hinv1
          refine ⟨m', ?_, ?_⟩
          · rw [List.foldl_cons, hstep, heq, List.filterMap_cons]
            simp [hfl]
          · intro ch' t
            rw [hinv' ch' t]
            have hl3 : done ++ [ch] ++ cs' = done ++ ch :: cs' := by simp
            rw [hl3]

theorem firstLoc_append (pre : List Event) (e : Event) (ch t : String) :
    firstLoc (pre ++ [e]) ch t =
      match firstLoc pre ch t with
      | some l => some l
      | none =>
        if trimS e.time ≠ "" ∧ ch ∈ e.characters ∧ e.time = t ∧
            trimS e.location ≠ "" then some e.location
        else none := by
  induction pre with
  | nil => simp [firstLoc]
  | cons x rest ih =>
    by_cases hx : trimS x.time ≠ "" ∧ ch ∈ x.characters ∧ x.time = t ∧
        trimS x.location ≠ ""
    · have h1 : firstLoc ((x :: rest) ++ [e]) ch t = some x.location := by
        rw [List.cons_append]
        unfold firstLoc
        rw [if_pos hx]
      have h2 : firstLoc (x :: rest) ch t = some x.location := by
        unfold firstLoc
        rw [if_pos hx]
      rw [h1, h2]
    · have h1 : firstLoc ((x :: rest) ++ [e]) ch t =
          firstLoc (rest ++ [e]) ch t := by
        simp only [List.cons_append, firstLoc, List.append_eq]
        rw [if_neg hx]
      have h2 : firstLoc (x :: rest) ch t = firstLoc rest ch t := by
        simp only [firstLoc]
        rw [if_neg hx]
      rw [h1, h2]
      exact ih

theorem timelineStep_spec (pre : List Event) (e : Event) (m : PerChar)
    (conf : List String)
    (hinv : ∀ ch t, lookup2 m ch t = firstLoc pre ch t) :
    ∃ m', timelineStep (m, conf) e = (m', conf ++ specEventConflicts pre e) ∧
      ∀ ch t, lookup2 m' ch t = firstLoc (pre ++ [e]) ch t := by
  by_cases hT : trimS e.time = ""
  · refine ⟨m, ?_, ?_⟩
    · simp [timelineStep, specEventConflicts, hT]
    · intro ch t
      rw [hinv ch t, firstLoc_append]
      cases hf : firstLoc pre ch t with
      | some l => rfl
      | none => simp [hT]
  · by_cases hcs : e.characters = []
    · refine ⟨m, ?_, ?_⟩
      · simp [timelineStep, specEventConflicts, hT, hcs]
      · intro ch t
        rw [hinv ch t, firstLoc_append]
        cases hf : firstLoc pre ch t with
        | some l => rfl
        | none => simp [hcs]
    · have hinv0 : ∀ ch t, lookup2 m ch t = auxLoc pre e [] ch t := by
        intro ch t
        rw [hinv ch t]
        unfold auxLoc
        cases hf : firstLoc pre ch t with
        | some l => rfl
        | none => simp
      obtain ⟨m', heq, hinv'⟩ :=
        timelineChar_foldl pre e hT e.characters [] m conf hinv0
      refine ⟨m', ?_, ?_⟩
      · have hunf : timelineStep (m, conf) e =
            e.characters.foldl (timelineChar e.time e.location) (m, conf) := by
          simp [timelineStep, hT, hcs]
        rw [hunf, heq]
        congr 1
        simp [specEventConflicts, hT]
      · intro ch t
        rw [hinv' ch t, firstLoc_append]
        unfold auxLoc
        cases hf : firstLoc pre ch t with
        | some l => rfl
        | none =>
          simp only [List.nil_append]
          refine if_congr ?_ rfl rfl
          constructor
          · rintro ⟨ht, hm, hl⟩
            exact ⟨hT, hm, ht.symm, hl⟩
          · rintro ⟨_, hm, ht, hl⟩
            exact ⟨ht.symm, hm, hl⟩

theorem timelineFold_spec :
    ∀ (evs pre : List Event) (m : PerChar) (conf : List String),
      (∀ ch t, lookup2 m ch t = firstLoc pre ch t) →
      (evs.foldl timelineStep (m, conf)).2 = conf ++ specTimeline pre evs := by
  intro evs
  induction evs with
  | nil => intro pre m conf _; simp [specTimeline]
  | cons e rest ih =>
    intro pre m conf hinv
    obtain ⟨m', heq, hinv'⟩ := timelineStep_spec pre e m conf hinv
    calc (List.foldl timelineStep (m, conf) (e :: rest)).2
        = (List.foldl timelineStep (timelineStep (m, conf) e) rest).2 := rfl
      _ = (List.foldl timelineStep
            (m', conf ++ specEventConflicts pre e) rest).2 := by rw [heq]
      _ = (conf ++ specEventConflicts pre e) ++ specTimeline (pre ++ [e]) rest :=
            ih (pre ++ [e]) m' _ hinv'
      _ = conf ++ specTimeline pre (e :: rest) := by simp [specTimeline]

/-- **C2.** The timeline scan of `validate_outline` implements exactly the
specified rule: scanning the merged list in order, for every event with
non-blank time and non-empty characters and for each of its characters,
the first occurrence of a `(character, time)` pair with a non-blank
location records that location, and every later event with the same
character and the same time string but a different non-blank location
yields one conflict line; events lacking time, location, or characters
neither establish nor violate a location claim. -/
theorem c2_timeline_spec_eq (evs : List Event) :
    timelineConflicts evs = specTimelineConflicts evs := by
  have h := timelineFold_spec evs [] [] []
    (fun ch t => by simp [lookup2, alookup, firstLoc])
  simpa [timelineConflicts, specTimelineConflicts] using h

/-- **C7.** Scanning the merged list in order, every position at which a
non-blank event id repeats an id already seen yields one duplicate-id
conflict naming the most recent previous position and the current position
(1-based); `validate_outline` succeeds if and only if both the duplicate-id
and the timeline conflict lists are empty, and otherwise reports all
collected conflicts joined as lines, never stopping at the first. -/
theorem c7_outline_validate (evs : List Event) :
    dupConflicts evs = specDupConflicts evs ∧
    (outlineValidateEvents evs = .ok () ↔
      dupConflicts evs = [] ∧ timelineConflicts evs = []) ∧
    ((dupConflicts evs ≠ [] ∨ timelineConflicts evs ≠ []) →
      outlineValidateEvents evs = .error
        (String.intercalate "\n" (dupConflicts evs ++ timelineConflicts evs))) := by
  have hdup : dupConflicts evs = specDupConflicts evs := by
    have h := dupScanGo_spec evs [] [] (fun id _ => rfl)
    simpa [dupConflicts, specDupConflicts] using h
  refine ⟨hdup, ?_, ?_⟩
  · unfold outlineValidateEvents
    by_cases h : dupConflicts evs ++ timelineConflicts evs = []
    · rcases List.append_eq_nil.mp h with ⟨h1, h2⟩
      rw [if_pos h]
      simp [h1, h2]
    · have hne : ¬(dupConflicts evs = [] ∧ timelineConflicts evs = []) := by
        rintro ⟨h1, h2⟩
        exact h (by simp [h1, h2])
      simp only [if_neg h]
      constructor
      · intro hcontr
        exact absurd hcontr (by simp)
      · intro hboth
        exact absurd hboth hne
  · intro h
    have hne : dupConflicts evs ++ timelineConflicts evs ≠ [] := by
      intro hnil
      rcases List.append_eq_nil.mp hnil with ⟨h1, h2⟩
      rcases h with h3 | h3 <;> exact h3 (by assumption)
    unfold outlineValidateEvents
    rw [if_neg hne]

/-- Witness for C7: a merged list with one duplicated id and one timeline
contradiction reports both conflicts joined, and a clean list passes. -/
theorem c7_witness :
    (dupConflicts
        [{ id := "a", time := "T1", location := "X", characters := ["Bob"] },
         { id := "a", time := "T1", location := "Y", characters := ["Bob"] }] ≠ [] ∨
      timelineConflicts
        [{ id := "a", time := "T1", location := "X", characters := ["Bob"] },
         { id := "a", time := "T1", location := "Y", characters := ["Bob"] }] ≠ []) ∧
    outlineValidateEvents
        [{ id := "a", time := "T1", location := "X", characters := ["Bob"] },
         { id := "a", time := "T1", location := "Y", characters := ["Bob"] }] =
      .error ("事件 id 重复：a（1 与 2）\n时间线冲突：Bob 在 T1 同时出现在 X 与 Y") ∧
    outlineValidateEvents [{ id := "e1", time := "T1" }] = .ok () := by
  refine ⟨Or.inl (by decide), ?_, ?_⟩
  · have h := (c7_outline_validate
      [{ id := "a", time := "T1", location := "X", characters := ["Bob"] },
       { id := "a", time := "T1", location := "Y", characters := ["Bob"] }]).2.2
      (Or.inl (by decide))
    rw [h]
    rfl
  · exact ((c7_outline_validate [{ id := "e1", time := "T1" }]).2.1).mpr
      (by decide)

/-- **C10.** The first non-blank location recorded for a
`(character, time)` pair is never replaced, even after a conflict: three
events placing one character at one time in pairwise-different non-blank
locations X, Y, Z (in scan order) yield exactly two conflicts, each
contrasting X with the later location, never Y with Z. -/
theorem c10_first_location_sticky (ch t X Y Z : String)
    (hT : trimS t ≠ "") (hX : trimS X ≠ "") (hY : trimS Y ≠ "")
    (hZ : trimS Z ≠ "") (hXY : X ≠ Y) (hXZ : X ≠ Z) (_hYZ : Y ≠ Z) :
    timelineConflicts
      [{ time := t, location := X, characters := [ch] },
       { time := t, location := Y, characters := [ch] },
       { time := t, location := Z, characters := [ch] }] =
      [tlMsg ch t X Y, tlMsg ch t X Z] := by
  simp [timelineConflicts, timelineStep, timelineChar, lookup2, aset, alookup,
    hT, hX, hY, hZ, hXY, hXZ]

/-- Witness for C10 at concrete inputs. -/
theorem c10_witness :
    timelineConflicts
      [{ time := "T1", location := "X", characters := ["Bob"] },
       { time := "T1", location := "Y", characters := ["Bob"] },
       { time := "T1", location := "Z", characters := ["Bob"] }] =
      [tlMsg "Bob" "T1" "X" "Y", tlMsg "Bob" "T1" "X" "Z"] :=
  c10_first_location_sticky "Bob" "T1" "X" "Y" "Z" (by decide) (by decide)
    (by decide) (by decide) (by decide) (by decide) (by decide)

theorem conceptUpdate_of_match (hash : String → String)
    (now relPath content : String) (idx : ConceptIndex) (f : ConceptFileInfo)
    (hf : alookup idx.files relPath = some f) (hh : f.hash = hash content) :
    conceptUpdate hash now relPath content idx = idx := by
  simp [conceptUpdate, hf, hh]

theorem conceptUpdate_changed (hash : String → String)
    (now relPath content : String) (idx : ConceptIndex)
    (hch : alookup idx.files relPath = none ∨
      ∃ f, alookup idx.files relPath = some f ∧ f.hash ≠ hash content) :
    conceptUpdate hash now relPath content idx =
      { revision := satAdd1 idx.revision, updated_at := now,
        files := aset idx.files relPath
          ⟨hash content, satAdd1 idx.revision, now⟩ } := by
  rcases hch with hl | ⟨f, hl, hne⟩
  · simp [conceptUpdate, hl]
  · simp [conceptUpdate, hl, hne]

theorem conceptUpdate_idem (hash : String → String)
    (now1 now2 relPath content : String) (idx : ConceptIndex) :
    conceptUpdate hash now2 relPath content
        (conceptUpdate hash now1 relPath content idx) =
      conceptUpdate hash now1 relPath content idx := by
  cases hl : alookup idx.files relPath with
  | none =>
    rw [conceptUpdate_changed hash now1 relPath content idx (Or.inl hl)]
    refine conceptUpdate_of_match hash now2 relPath content _
      ⟨hash content, satAdd1 idx.revision, now1⟩ ?_ rfl
    show alookup (aset idx.files relPath _) relPath = _
    rw [alookup_aset]
    simp
  | some f =>
    by_cases hh : f.hash = hash content
    · rw [conceptUpdate_of_match hash now1 relPath content idx f hl hh,
        conceptUpdate_of_match hash now2 relPath content idx f hl hh]
    · rw [conceptUpdate_changed hash now1 relPath content idx
        (Or.inr ⟨f, hl, hh⟩)]
      refine conceptUpdate_of_match hash now2 relPath content _
        ⟨hash content, satAdd1 idx.revision, now1⟩ ?_ rfl
      show alookup (aset idx.files relPath _) relPath = _
      rw [alookup_aset]
      simp

theorem conceptUpdate_rev_mono (hash : String → String)
    (now relPath content : String) (idx : ConceptIndex) :
    idx.revision ≤ (conceptUpdate hash now relPath content idx).revision := by
  unfold conceptUpdate
  by_cases hch : (match alookup idx.files relPath with
    | some f => if f.hash = hash content then false else true
    | none => true) = true
  · rw [if_pos hch]
    show idx.revision ≤ satAdd1 idx.revision
    unfold satAdd1
    split <;> omega
  · rw [if_neg hch]

theorem applyUpdates_rev_mono (hash : String → String) :
    ∀ (calls : List (String × String × String)) (idx : ConceptIndex),
      idx.revision ≤ (applyUpdates hash calls idx).revision := by
  intro calls
  induction calls with
  | nil => intro idx; exact le_refl _
  | cons c rest ih =>
    intro idx
    obtain ⟨now, relPath, content⟩ := c
    exact le_trans (conceptUpdate_rev_mono hash now relPath content idx)
      (ih (conceptUpdate hash now relPath content idx))

/-- **C1 (counterexample).** When the stored entry already holds the hash of
the content, calling update twice yields zero revision bumps, not "exactly
one": both calls are complete no-ops. -/
theorem c1_counterexample :
    conceptUpdate (fun s => s) "9" "a.md" "x"
        (conceptUpdate (fun s => s) "8" "a.md" "x"
          { revision := 1, updated_at := "5",
            files := [("a.md", { hash := "x", revision := 1, updated_at := "5" })] }) =
      { revision := 1, updated_at := "5",
        files := [("a.md", { hash := "x", revision := 1, updated_at := "5" })] } ∧
    (conceptUpdate (fun s => s) "9" "a.md" "x"
        (conceptUpdate (fun s => s) "8" "a.md" "x"
          { revision := 1, updated_at := "5",
            files := [("a.md", { hash := "x", revision := 1, updated_at := "5" })] })).revision ≠
      (1 : Nat) + 1 := by
  constructor
  · decide
  · decide

/-- **C1 (amended).** If the stored entry for the path already holds the
hash of the content, the call changes nothing at all (no revision bump, no
timestamp update); calling update twice with identical content yields at
most one revision bump — exactly one when the path is new or its stored
hash differs and the revision is below `u64::MAX` — and the second call
always leaves the stored index byte-identical (any deterministic
serialisation of it is unchanged) to its state after the first call. -/
theorem c1_amended (hash : String → String)
    (now1 now2 relPath content : String) (idx : ConceptIndex) :
    (∀ f, alookup idx.files relPath = some f → f.hash = hash content →
      conceptUpdate hash now1 relPath content idx = idx) ∧
    conceptUpdate hash now2 relPath content
        (conceptUpdate hash now1 relPath content idx) =
      conceptUpdate hash now1 relPath content idx ∧
    ((alookup idx.files relPath = none ∨
        ∃ f, alookup idx.files relPath = some f ∧ f.hash ≠ hash content) →
      idx.revision < u64Max →
      (conceptUpdate hash now1 relPath content idx).revision =
        idx.revision + 1) ∧
    (∀ ser : ConceptIndex → String,
      ser (conceptUpdate hash now2 relPath content
            (conceptUpdate hash now1 relPath content idx)) =
        ser (conceptUpdate hash now1 relPath content idx)) := by
  refine ⟨?_, conceptUpdate_idem hash now1 now2 relPath content idx, ?_, ?_⟩
  · intro f hf hh
    exact conceptUpdate_of_match hash now1 relPath content idx f hf hh
  · intro hch hlt
    rw [conceptUpdate_changed hash now1 relPath content idx hch]
    show satAdd1 idx.revision = idx.revision + 1
    unfold satAdd1
    rw [if_pos hlt]
  · intro ser
    rw [conceptUpdate_idem hash now1 now2 relPath content idx]

/-- Witness for the amended C1 at concrete inputs: a fresh path bumps the
revision exactly once across two identical writes, and the second write
changes nothing. -/
theorem c1_amended_witness :
    conceptUpdate (fun s => s ++ "#h") "8" "concept/a.md" "body"
        { revision := 3, updated_at := "7", files := [] } =
      { revision := 4, updated_at := "8",
        files := [("concept/a.md",
          { hash := "body#h", revision := 4, updated_at := "8" })] } ∧
    (conceptUpdate (fun s => s ++ "#h") "8" "concept/a.md" "body"
        { revision := 3, updated_at := "7", files := [] }).revision = 3 + 1 ∧
    conceptUpdate (fun s => s ++ "#h") "9" "concept/a.md" "body"
        (conceptUpdate (fun s => s ++ "#h") "8" "concept/a.md" "body"
          { revision := 3, updated_at := "7", files := [] }) =
      conceptUpdate (fun s => s ++ "#h") "8" "concept/a.md" "body"
        { revision := 3, updated_at := "7", files := [] } := by
  refine ⟨by decide, ?_, ?_⟩
  · exact (c1_amended (fun s => s ++ "#h") "8" "9" "concept/a.md" "body"
      { revision := 3, updated_at := "7", files := [] }).2.2.1
      (Or.inl (by decide)) (by decide)
  · exact (c1_amended (fun s => s ++ "#h") "8" "9" "concept/a.md" "body"
      { revision := 3, updated_at := "7", files := [] }).2.1

/-- **C8.** Over any sequence of update calls the global revision never
decreases; a single call changes the revision only when the path has no
stored entry or the stored hash differs from the hash of the new content;
and an update whose content hash matches the stored entry leaves the whole
index value — hence any deterministic serialisation of it, in particular
the persisted file bytes — unchanged. -/
theorem c8_concept_index_invariants (hash : String → String)
    (calls : List (String × String × String)) (idx : ConceptIndex)
    (now relPath content : String) :
    idx.revision ≤ (applyUpdates hash calls idx).revision ∧
    ((conceptUpdate hash now relPath content idx).revision ≠ idx.revision →
      alookup idx.files relPath = none ∨
        ∃ f, alookup idx.files relPath = some f ∧ f.hash ≠ hash content) ∧
    (∀ f, alookup idx.files relPath = some f → f.hash = hash content →
      ∀ ser : ConceptIndex → String,
        ser (conceptUpdate hash now relPath content idx) = ser idx) := by
  refine ⟨applyUpdates_rev_mono hash calls idx, ?_, ?_⟩
  · intro hne
    cases hl : alookup idx.files relPath with
    | none => exact Or.inl rfl
    | some f =>
      by_cases hh : f.hash = hash content
      · rw [conceptUpdate_of_match hash now relPath content idx f hl hh] at hne
        exact absurd rfl hne
      · exact Or.inr ⟨f, rfl, hh⟩
  · intro f hf hh ser
    rw [conceptUpdate_of_match hash now relPath content idx f hf hh]

/-- Witness for C8 at concrete inputs: the revision is monotone over a
two-call sequence, a revision change implies a fresh path or changed hash,
and a hash-matching update leaves the serialised index unchanged. -/
theorem c8_witness :
    cIdx0.revision ≤
      (applyUpdates (fun s => s) [("2", "b.md", "y"), ("4", "a.md", "w")] cIdx0).revision ∧
    (alookup cIdx0.files "b.md" = none ∨
      ∃ f, alookup cIdx0.files "b.md" = some f ∧ f.hash ≠ (fun s => s) "y") ∧
    cSer0 (conceptUpdate (fun s => s) "9" "a.md" "v" cIdx0) = cSer0 cIdx0 := by
  refine ⟨?_, ?_, ?_⟩
  · exact (c8_concept_index_invariants (fun s => s)
      [("2", "b.md", "y"), ("4", "a.md", "w")] cIdx0 "2" "b.md" "y").1
  · exact (c8_concept_index_invariants (fun s => s)
      [("2", "b.md", "y"), ("4", "a.md", "w")] cIdx0 "2" "b.md" "y").2.1
      (by decide)
  · exact (c8_concept_index_invariants (fun s => s)
      [("2", "b.md", "y"), ("4", "a.md", "w")] cIdx0 "9" "a.md" "v").2.2
      { hash := "v", revision := 3, updated_at := "1" }
      (by decide) (by decide) cSer0

theorem startsL_subset :
    ∀ (pre l : List Char), startsL pre l = true → ∀ c ∈ pre, c ∈ l := by
  intro pre
  induction pre with
  | nil => intro l _ c hc; simp at hc
  | cons p ps ih =>
    intro l h c hc
    cases l with
    | nil => simp [startsL] at h
    | cons x xs =>
      simp only [startsL, Bool.and_eq_true, decide_eq_true_eq] at h
      obtain ⟨h1, h2⟩ := h
      rcases List.mem_cons.mp hc with hcp | hcps
      · exact List.mem_cons.mpr (Or.inl (hcp.trans h1))
      · exact List.mem_cons.mpr (Or.inr (ih xs h2 c hcps))

theorem chUpper_eq_colon {c : Char} (h : chUpper c = ':') : c = ':' := by
  unfold chUpper at h
  by_cases h1 : c = 'a'
  · rw [if_pos h1] at h
    exact absurd h (by decide)
  · rw [if_neg h1] at h
    by_cases h2 : c = 'b'
    · rw [if_pos h2] at h
      exact absurd h (by decide)
    · rw [if_neg h2] at h
      by_cases h3 : c = 'c'
      · rw [if_pos h3] at h
        exact absurd h (by decide)
      · rw [if_neg h3] at h
        by_cases h4 : c = 'd'
        · rw [if_pos h4] at h
          exact absurd h (by decide)
        · rw [if_neg h4] at h
          by_cases h5 : c = 'e'
          · rw [if_pos h5] at h
            exact absurd h (by decide)
          · rw [if_neg h5] at h
            by_cases h6 : c = 'f'
            · rw [if_pos h6] at h
              exact absurd h (by decide)
            · rw [if_neg h6] at h
              by_cases h7 : c = 'g'
              · rw [if_pos h7] at h
                exact absurd h (by decide)
              · rw [if_neg h7] at h
                by_cases h8 : c = 'h'
                · rw [if_pos h8] at h
                  exact absurd h (by decide)
                · rw [if_neg h8] at h
                  by_cases h9 : c = 'i'
                  · rw [if_pos h9] at h
                    exact absurd h (by decide)
                  · rw [if_neg h9] at h
                    by_cases h10 : c = 'j'
                    · rw [if_pos h10] at h
                      exact absurd h (by decide)
                    · rw [if_neg h10] at h
                      by_cases h11 : c = 'k'
                      · rw [if_pos h11] at h
                        exact absurd h (by decide)
                      · rw [if_neg h11] at h
                        by_cases h12 : c = 'l'
                        · rw [if_pos h12] at h
                          exact absurd h (by decide)
                        · rw [if_neg h12] at h
                          by_cases h13 : c = 'm'
                          · rw [if_pos h13] at h
                            exact absurd h (by decide)
                          · rw [if_neg h13] at h
                            by_cases h14 : c = 'n'
                            · rw [if_pos h14] at h
                              exact absurd h (by decide)
                            · rw [if_neg h14] at h
                              by_cases h15 : c = 'o'
                              · rw [if_pos h15] at h
                                exact absurd h (by decide)
                              · rw [if_neg h15] at h
                                by_cases h16 : c = 'p'
                                · rw [if_pos h16] at h
                                  exact absurd h (by decide)
                                · rw [if_neg h16] at h
                                  by_cases h17 : c = 'q'
                                  · rw [if_pos h17] at h
                                    exact absurd h (by decide)
                                  · rw [if_neg h17] at h
                                    by_cases h18 : c = 'r'
                                    · rw [if_pos h18] at h
                                      exact absurd h (by decide)
                                    · rw [if_neg h18] at h
                                      by_cases h19 : c = 's'
                                      · rw [if_pos h19] at h
                                        exact absurd h (by decide)
                                      · rw [if_neg h19] at h
                                        by_cases h20 : c = 't'
                                        · rw [if_pos h20] at h
                                          exact absurd h (by decide)
                                        · rw [if_neg h20] at h
                                          by_cases h21 : c = 'u'
                                          · rw [if_pos h21] at h
                                            exact absurd h (by decide)
                                          · rw [if_neg h21] at h
                                            by_cases h22 : c = 'v'
                                            · rw [if_pos h22] at h
                                              exact absurd h (by decide)
                                            · rw [if_neg h22] at h
                                              by_cases h23 : c = 'w'
                                              · rw [if_pos h23] at h
                                                exact absurd h (by decide)
                                              · rw [if_neg h23] at h
                                                by_cases h24 : c = 'x'
                                                · rw [if_pos h24] at h
                                                  exact absurd h (by decide)
                                                · rw [if_neg h24] at h
                                                  by_cases h25 : c = 'y'
                                                  · rw [if_pos h25] at h
                                                    exact absurd h (by decide)
                                                  · rw [if_neg h25] at h
                                                    by_cases h26 : c = 'z'
                                                    · rw [if_pos h26] at h
                                                      exact absurd h (by decide)
                                                    · rw [if_neg h26] at h
                                                      exact h

theorem splitCh_ne_nil (sep : Char) (l : List Char) : splitCh sep l ≠ [] := by
  cases l with
  | nil => simp [splitCh]
  | cons c cs =>
    unfold splitCh
    by_cases h : c = sep
    · simp [h]
    · rw [if_neg h]
      cases hs : splitCh sep cs <;> simp

theorem splitCh_length_of_mem (sep : Char) :
    ∀ l : List Char, sep ∈ l → 2 ≤ (splitCh sep l).length := by
  intro l
  induction l with
  | nil => intro h; simp at h
  | cons c cs ih =>
    intro hmem
    unfold splitCh
    by_cases h : c = sep
    · rw [if_pos h]
      have hne := splitCh_ne_nil sep cs
      have hlen : 1 ≤ (splitCh sep cs).length := by
        cases hs : splitCh sep cs with
        | nil => exact absurd hs hne
        | cons a b => simp
      simp only [List.length_cons]
      omega
    · rw [if_neg h]
      have hcs : sep ∈ cs := by
        rcases List.mem_cons.mp hmem with h1 | h1
        · exact absurd h1.symm h
        · exact h1
      have hrec := ih hcs
      cases hs : splitCh sep cs with
      | nil => exact absurd hs (splitCh_ne_nil sep cs)
      | cons p ps =>
        rw [hs] at hrec
        simp only [List.length_cons] at hrec ⊢
        omega

theorem afterColon_isSome_of_mem {t : List Char} (h : ':' ∈ t) :
    ∃ r, afterColon t = some r := by
  have hlen := splitCh_length_of_mem ':' t h
  unfold afterColon
  cases hs : splitCh ':' t with
  | nil => exact absurd hs (splitCh_ne_nil ':' t)
  | cons p ps =>
    cases ps with
    | nil => rw [hs] at hlen; simp at hlen
    | cons q qs => exact ⟨joinCh ':' (q :: qs), rfl⟩

theorem colon_mem_of_act {l : List Char} (h : isActLine l = true) :
    ':' ∈ trimL l := by
  have hc : ':' ∈ actKey := by decide
  have hmem := startsL_subset actKey ((trimL l).map chUpper) h ':' hc
  rcases List.mem_map.mp hmem with ⟨c, hcl, hcu⟩
  have hcc := chUpper_eq_colon hcu
  exact hcc ▸ hcl

theorem colon_mem_of_inp {l : List Char} (h : isInpLine l = true) :
    ':' ∈ trimL l := by
  have hc : ':' ∈ inpKey := by decide
  have hmem := startsL_subset inpKey ((trimL l).map chUpper) h ':' hc
  rcases List.mem_map.mp hmem with ⟨c, hcl, hcu⟩
  have hcc := chUpper_eq_colon hcu
  exact hcc ▸ hcl

theorem act_not_inp {l : List Char} (h : isActLine l = true) :
    isInpLine l = false := by
  cases hi : isInpLine l
  · rfl
  · exfalso
    unfold isActLine at h
    unfold isInpLine at hi
    cases hm : (trimL l).map chUpper with
    | nil => rw [hm] at h; exact absurd h (by decide)
    | cons x xs =>
      rw [hm] at h hi
      have h1 : 'A' = x := by
        simp only [actKey, startsL, Bool.and_eq_true, decide_eq_true_eq] at h
        exact h.1
      have h2 : 'I' = x := by
        simp only [inpKey, startsL, Bool.and_eq_true, decide_eq_true_eq] at hi
        exact hi.1
      rw [← h2] at h1
      exact absurd h1 (by decide)

theorem getLast?_cons' {α : Type} (x : α) (xs : List α) :
    (x :: xs).getLast? =
      match xs.getLast? with
      | some y => some y
      | none => some x := by
  induction xs generalizing x with
  | nil => simp
  | cons y ys ih =>
    rw [List.getLast?_cons_cons, ih y]
    cases hys : ys.getLast? with
    | some z => rfl
    | none => rfl

theorem lastSuch_cons (p : List Char → Bool) (l : List Char)
    (ls : List (List Char)) :
    lastSuch p (l :: ls) =
      match lastSuch p ls with
      | some la => some la
      | none => if p l then some l else none := by
  unfold lastSuch
  by_cases h : p l
  · rw [List.filter_cons_of_pos (by simpa using h), getLast?_cons']
    cases hrec : (ls.filter p).getLast? with
    | some la => rfl
    | none => simp [h]
  · rw [List.filter_cons_of_neg (by simpa using h)]
    cases hrec : (ls.filter p).getLast? with
    | some la => rfl
    | none => simp [h]

theorem scanLines_spec :
    ∀ (ls : List (List Char)) (toolAcc inpAcc : Option (List Char)),
      scanLines ls toolAcc inpAcc = some
        ((match lastSuch isActLine ls with
          | some la => some (extractAfterColon la)
          | none => toolAcc),
         (match lastSuch isInpLine ls with
          | some li => some (extractAfterColon li)
          | none => inpAcc)) := by
  intro ls
  induction ls with
  | nil => intro toolAcc inpAcc; rfl
  | cons l rest ih =>
    intro toolAcc inpAcc
    by_cases ha : isActLine l
    · have hni := act_not_inp ha
      obtain ⟨r, hr⟩ := afterColon_isSome_of_mem (colon_mem_of_act ha)
      have hscan : scanLines (l :: rest) toolAcc inpAcc =
          scanLines rest (some (trimL r)) inpAcc := by
        simp only [scanLines]
        rw [if_pos ha, hr]
      rw [hscan, ih (some (trimL r)) inpAcc, lastSuch_cons, lastSuch_cons]
      cases hla : lastSuch isActLine rest <;>
        cases hli : lastSuch isInpLine rest <;>
        simp [ha, hni, extractAfterColon, hr]
    · have hna : isActLine l = false := by
        cases hb : isActLine l
        · rfl
        · exact absurd hb ha
      by_cases hi : isInpLine l
      · obtain ⟨r, hr⟩ := afterColon_isSome_of_mem (colon_mem_of_inp hi)
        have hscan : scanLines (l :: rest) toolAcc inpAcc =
            scanLines rest toolAcc (some (trimL r)) := by
          simp only [scanLines]
          rw [if_neg ha, if_pos hi, hr]
        rw [hscan, ih toolAcc (some (trimL r)), lastSuch_cons, lastSuch_cons]
        cases hla : lastSuch isActLine rest <;>
          cases hli : lastSuch isInpLine rest <;>
          simp [hna, hi, extractAfterColon, hr]
      · have hnb : isInpLine l = false := by
          cases hb : isInpLine l
          · rfl
          · exact absurd hb hi
        have hscan : scanLines (l :: rest) toolAcc inpAcc =
            scanLines rest toolAcc inpAcc := by
          simp only [scanLines]
          rw [if_neg ha, if_neg hi]
        rw [hscan, ih toolAcc inpAcc, lastSuch_cons, lastSuch_cons]
        cases hla : lastSuch isActLine rest <;>
          cases hli : lastSuch isInpLine rest <;>
          simp [hna, hnb]

theorem lastSuch_eq_none_iff (p : List Char → Bool) (ls : List (List Char)) :
    lastSuch p ls = none ↔ ∀ l ∈ ls, p l = false := by
  induction ls with
  | nil => simp [lastSuch]
  | cons l rest ih =>
    rw [lastSuch_cons]
    constructor
    · intro h
      cases hr : lastSuch p rest with
      | some la => rw [hr] at h; exact absurd h (by simp)
      | none =>
        rw [hr] at h
        by_cases hp : p l
        · rw [if_pos hp] at h
          exact absurd h (by simp)
        · intro x hx
          rcases List.mem_cons.mp hx with h1 | h1
          · subst h1
            cases hb : p x with
            | false => rfl
            | true => exact absurd hb hp
          · exact (ih.mp hr) x h1
    · intro h
      have hrest : lastSuch p rest = none :=
        ih.mpr (fun x hx => h x (List.mem_cons.mpr (Or.inr hx)))
      rw [hrest]
      have hl : p l = false := h l (List.mem_cons.mpr (Or.inl rfl))
      simp [hl]

/-- **C6.** `parse_tool_call` returns `none` exactly when no line begins
(case-insensitive, after trimming) with `ACTION:` or no line begins with
`INPUT:`; when both markers are present the last line of each kind wins,
the tool name is the text after the first colon trimmed, and a JSON parse
failure of the argument string wraps it as `raw` instead of failing. -/
theorem c6_parse_tool_call (jp : String → Option J) (text : String) :
    (parse_tool_call jp text = none ↔
      (∀ l ∈ splitCh '\n' text.data, isActLine l = false) ∨
      (∀ l ∈ splitCh '\n' text.data, isInpLine l = false)) ∧
    (∀ c, parse_tool_call jp text = some c →
      ∃ la li, lastSuch isActLine (splitCh '\n' text.data) = some la ∧
        lastSuch isInpLine (splitCh '\n' text.data) = some li ∧
        c.tool = ⟨extractAfterColon la⟩ ∧
        c.args = (match jp ⟨extractAfterColon li⟩ with
          | some v => v
          | none => J.jobj [("raw", J.jstr ⟨extractAfterColon li⟩)])) := by
  have hp : parse_tool_call jp text =
      (match lastSuch isActLine (splitCh '\n' text.data),
             lastSuch isInpLine (splitCh '\n' text.data) with
       | some la, some li =>
         some { tool := ⟨extractAfterColon la⟩,
                args := (match jp ⟨extractAfterColon li⟩ with
                  | some v => v
                  | none => J.jobj [("raw", J.jstr ⟨extractAfterColon li⟩)]) }
       | _, _ => none) := by
    unfold parse_tool_call
    rw [scanLines_spec (splitCh '\n' text.data) none none]
    cases hla : lastSuch isActLine (splitCh '\n' text.data) <;>
      cases hli : lastSuch isInpLine (splitCh '\n' text.data) <;> rfl
  constructor
  · rw [hp]
    cases hla : lastSuch isActLine (splitCh '\n' text.data) with
    | none =>
      cases hli : lastSuch isInpLine (splitCh '\n' text.data) with
      | none =>
        exact ⟨fun _ => Or.inl ((lastSuch_eq_none_iff _ _).mp hla),
          fun _ => rfl⟩
      | some li =>
        exact ⟨fun _ => Or.inl ((lastSuch_eq_none_iff _ _).mp hla),
          fun _ => rfl⟩
    | some la =>
      cases hli : lastSuch isInpLine (splitCh '\n' text.data) with
      | none =>
        exact ⟨fun _ => Or.inr ((lastSuch_eq_none_iff _ _).mp hli),
          fun _ => rfl⟩
      | some li =>
        constructor
        · intro h
          exact absurd h (by simp)
        · intro hdisj
          exfalso
          rcases hdisj with hd | hd
          · have hnone := (lastSuch_eq_none_iff isActLine _).mpr hd
            rw [hla] at hnone
            exact Option.noConfusion hnone
          · have hnone := (lastSuch_eq_none_iff isInpLine _).mpr hd
            rw [hli] at hnone
            exact Option.noConfusion hnone
  · intro c hc
    rw [hp] at hc
    cases hla : lastSuch isActLine (splitCh '\n' text.data) with
    | none =>
      rw [hla] at hc
      cases hli : lastSuch isInpLine (splitCh '\n' text.data) <;>
        rw [hli] at hc <;> exact absurd hc (by simp)
    | some la =>
      rw [hla] at hc
      cases hli : lastSuch isInpLine (splitCh '\n' text.data) with
      | none =>
        rw [hli] at hc
        exact absurd hc (by simp)
      | some li =>
        rw [hli] at hc
        obtain rfl := Option.some.inj hc
        exact ⟨la, li, rfl, rfl, rfl, rfl⟩

/-- Witness for C6 at concrete inputs: text with both markers (lowercased,
repeated — the last of each kind wins) and a non-JSON argument string
parses to the last tool name with raw-wrapped args; pure prose parses to
`none`. -/
theorem c6_witness :
    (∃ la li,
      lastSuch isActLine (splitCh '\n' "noise\naction: alpha\nACTION: beta\ninput: raw stuff".data) = some la ∧
      lastSuch isInpLine (splitCh '\n' "noise\naction: alpha\nACTION: beta\ninput: raw stuff".data) = some li ∧
      ({ tool := "beta",
         args := J.jobj [("raw", J.jstr "raw stuff")] } : ParsedToolCall).tool =
        ⟨extractAfterColon la⟩ ∧
      ({ tool := "beta",
         args := J.jobj [("raw", J.jstr "raw stuff")] } : ParsedToolCall).args =
        (match (fun _ : String => (none : Option J)) ⟨extractAfterColon li⟩ with
          | some v => v
          | none => J.jobj [("raw", J.jstr ⟨extractAfterColon li⟩)])) ∧
    parse_tool_call (fun _ => none) "just prose, no markers" = none := by
  constructor
  · exact (c6_parse_tool_call (fun _ => none)
      "noise\naction: alpha\nACTION: beta\ninput: raw stuff").2
      { tool := "beta", args := J.jobj [("raw", J.jstr "raw stuff")] } rfl
  · exact (c6_parse_tool_call (fun _ => none) "just prose, no markers").1.mpr
      (Or.inl (by decide))

/-- **C9.** An intercepted `memory_upsert` call with a non-blank string
`key` and a present string `value` always reports the observation
`ok: true`, for every outcome of `MemoryStore::save` — the save result is
discarded, so a persistence failure is never surfaced to the model or the
caller as a tool error. -/
theorem c9_memory_upsert_save_discarded (reg : Registry)
    (saveR : Except String Unit) (mem : List MemoryItem) (args : J)
    (k v : String)
    (hk : (jGet args "key").bind jAsStr = some k)
    (hkb : trimS k ≠ "")
    (hv : (jGet args "value").bind jAsStr = some v) :
    dispatchTool reg saveR mem { tool := "memory_upsert", args := args } =
      .ok (.ok (J.jobj [("ok", J.jbool true)]), memUpsert mem k v) := by
  simp [dispatchTool, hk, hv, hkb]

/-- Witness for C9: a concrete upsert whose save fails with `disk full`
still reports `ok: true` and updates the in-memory store. -/
theorem c9_witness :
    dispatchTool [] (.error "disk full") []
        { tool := "memory_upsert",
          args := J.jobj [("key", J.jstr "fact"), ("value", J.jstr "v1")] } =
      .ok (.ok (J.jobj [("ok", J.jbool true)]), memUpsert [] "fact" "v1") :=
  c9_memory_upsert_save_discarded [] (.error "disk full") []
    (J.jobj [("key", J.jstr "fact"), ("value", J.jstr "v1")]) "fact" "v1"
    rfl (by decide) rfl

/-- Every dispatched call other than a `memory_search` lacking its `query`
string yields an observation rather than aborting the loop. -/
theorem dispatchTool_ok (reg : Registry) (saveR : Except String Unit)
    (mem : List MemoryItem) (call : ParsedToolCall)
    (hq : call.tool = "memory_search" →
      ((jGet call.args "query").bind jAsStr).isSome) :
    ∃ result mem', dispatchTool reg saveR mem call = .ok (result, mem') := by
  by_cases h1 : call.tool = "memory_upsert"
  · cases hk : (jGet call.args "key").bind jAsStr with
    | none =>
      exact ⟨.error "missing args.key", mem, by simp [dispatchTool, h1, hk]⟩
    | some s =>
      by_cases hs : trimS s = ""
      · exact ⟨.error "empty args.key", mem,
          by simp [dispatchTool, h1, hk, hs]⟩
      · cases hv : (jGet call.args "value").bind jAsStr with
        | none =>
          exact ⟨.error "missing args.value", mem,
            by simp [dispatchTool, h1, hk, hs, hv]⟩
        | some v =>
          exact ⟨.ok (J.jobj [("ok", J.jbool true)]), memUpsert mem s v,
            by simp [dispatchTool, h1, hk, hs, hv]⟩
  · by_cases h2 : call.tool = "memory_search"
    · cases hq2 : (jGet call.args "query").bind jAsStr with
      | none =>
        exfalso
        have := hq h2
        rw [hq2] at this
        simp at this
      | some q =>
        refine ⟨.ok (J.jarr ((memSearch mem q
          (((jGet call.args "limit").bind jAsU64).getD 10)).map
          (fun it => J.jobj [("key", J.jstr it.key), ("value", J.jstr it.value)]))),
          mem, ?_⟩
        simp [dispatchTool, h1, h2, hq2]
    · exact ⟨regCall reg call.tool call.args, mem,
        by simp [dispatchTool, h1, h2]⟩

/-- Appending an assistant action and its observation makes the action the
most recent assistant-authored message. -/
theorem lastAssistant_append (l : List ChatMessage) (out x : String) :
    lastAssistant (l ++ [{ role := "assistant", content := out },
      { role := "user", content := x }]) = some out := by
  unfold lastAssistant
  rw [List.reverse_append]
  have hrev : ([{ role := "assistant", content := out },
      { role := "user", content := x }] : List ChatMessage).reverse =
      [{ role := "user", content := x },
       { role := "assistant", content := out }] := rfl
  rw [hrev]
  simp only [List.cons_append, List.nil_append]
  rfl

theorem runReactAux_zero (reg : Registry) (jp : String → Option J)
    (jser : J → String) (saveR : Except String Unit)
    (model : List ChatMessage → Except String String)
    (messages : List ChatMessage) (mem : List MemoryItem) (perf : AgentPerf) :
    runReactAux reg jp jser saveR model 0 messages mem perf =
      .ok ((lastAssistant messages).getD "", perf, messages, mem) := rfl

theorem runReactAux_model_err (reg : Registry) (jp : String → Option J)
    (jser : J → String) (saveR : Except String Unit)
    (model : List ChatMessage → Except String String) (n : Nat)
    (messages : List ChatMessage) (mem : List MemoryItem) (perf : AgentPerf)
    (e : String) (hm : model messages = .error e) :
    runReactAux reg jp jser saveR model (n + 1) messages mem perf =
      .error e := by
  simp only [runReactAux, hm]

theorem runReactAux_no_call (reg : Registry) (jp : String → Option J)
    (jser : J → String) (saveR : Except String Unit)
    (model : List ChatMessage → Except String String) (n : Nat)
    (messages : List ChatMessage) (mem : List MemoryItem) (perf : AgentPerf)
    (out : String) (hm : model messages = .ok out)
    (hp : parse_tool_call jp out = none) :
    runReactAux reg jp jser saveR model (n + 1) messages mem perf =
      .ok (out, { perf with steps := perf.steps + 1 }, messages, mem) := by
  simp only [runReactAux, hm, hp]

theorem runReactAux_tool_err (reg : Registry) (jp : String → Option J)
    (jser : J → String) (saveR : Except String Unit)
    (model : List ChatMessage → Except String String) (n : Nat)
    (messages : List ChatMessage) (mem : List MemoryItem) (perf : AgentPerf)
    (out : String) (call : ParsedToolCall) (e : String)
    (hm : model messages = .ok out)
    (hp : parse_tool_call jp out = some call)
    (hd : dispatchTool reg saveR mem call = .error e) :
    runReactAux reg jp jser saveR model (n + 1) messages mem perf =
      .error e := by
  simp only [runReactAux, hm, hp, hd]

theorem runReactAux_tool_ok (reg : Registry) (jp : String → Option J)
    (jser : J → String) (saveR : Except String Unit)
    (model : List ChatMessage → Except String String) (n : Nat)
    (messages : List ChatMessage) (mem : List MemoryItem) (perf : AgentPerf)
    (out : String) (call : ParsedToolCall) (result : Except String J)
    (mem2 : List MemoryItem)
    (hm : model messages = .ok out)
    (hp : parse_tool_call jp out = some call)
    (hd : dispatchTool reg saveR mem call = .ok (result, mem2)) :
    runReactAux reg jp jser saveR model (n + 1) messages mem perf =
      runReactAux reg jp jser saveR model n
        (messages ++ [{ role := "assistant", content := out },
          { role := "user", content := "OBSERVATION:\n" ++ jser (obsOf result) }])
        mem2 { perf with steps := perf.steps + 1 } := by
  simp only [runReactAux, hm, hp, hd]

/-- The step counter of a successful run is bounded by the fuel spent. -/
theorem runReactAux_steps_le (reg : Registry) (jp : String → Option J)
    (jser : J → String) (saveR : Except String Unit)
    (model : List ChatMessage → Except String String) :
    ∀ (fuel : Nat) (messages : List ChatMessage) (mem : List MemoryItem)
      (perf : AgentPerf) (t : String) (p : AgentPerf)
      (msgs' : List ChatMessage) (mem' : List MemoryItem),
      runReactAux reg jp jser saveR model fuel messages mem perf =
        .ok (t, p, msgs', mem') → p.steps ≤ perf.steps + fuel := by
  intro fuel
  induction fuel with
  | zero =>
    intro messages mem perf t p msgs' mem' h
    rw [runReactAux_zero] at h
    simp only [Except.ok.injEq, Prod.mk.injEq] at h
    obtain ⟨-, hp, -, -⟩ := h
    subst hp
    omega
  | succ n ih =>
    intro messages mem perf t p msgs' mem' h
    cases hm : model messages with
    | error e =>
      rw [runReactAux_model_err reg jp jser saveR model n messages mem perf e hm] at h
      exact absurd h (by simp)
    | ok out =>
      cases hp : parse_tool_call jp out with
      | none =>
        rw [runReactAux_no_call reg jp jser saveR model n messages mem perf
          out hm hp] at h
        simp only [Except.ok.injEq, Prod.mk.injEq] at h
        obtain ⟨-, hpe, -, -⟩ := h
        subst hpe
        simp only []
        omega
      | some call =>
        cases hd : dispatchTool reg saveR mem call with
        | error e =>
          rw [runReactAux_tool_err reg jp jser saveR model n messages mem perf
            out call e hm hp hd] at h
          exact absurd h (by simp)
        | ok rm =>
          obtain ⟨result, mem2⟩ := rm
          rw [runReactAux_tool_ok reg jp jser saveR model n messages mem perf
            out call result mem2 hm hp hd] at h
          have hrec := ih _ _ _ _ _ _ _ h
          simp only [] at hrec
          omega

/-- Under a stub that always answers with a well-formed tool call (and
never a `memory_search` without its query), the loop consumes its whole
fuel, errors never, and ends with the last action as the most recent
assistant message. -/
theorem runReactAux_budget (reg : Registry) (jp : String → Option J)
    (jser : J → String) (saveR : Except String Unit)
    (model : List ChatMessage → Except String String)
    (H : ∀ msgs, ∃ out c, model msgs = .ok out ∧
      parse_tool_call jp out = some c ∧
      (c.tool = "memory_search" → ((jGet c.args "query").bind jAsStr).isSome)) :
    ∀ (fuel : Nat) (messages : List ChatMessage) (mem : List MemoryItem)
      (perf : AgentPerf),
      ∃ t p msgs' mem',
        runReactAux reg jp jser saveR model fuel messages mem perf =
          .ok (t, p, msgs', mem') ∧
        p.steps = perf.steps + fuel ∧ p.model_ms = perf.model_ms ∧
        p.tool_ms = perf.tool_ms ∧
        (fuel = 0 → t = (lastAssistant messages).getD "" ∧ msgs' = messages) ∧
        (fuel ≠ 0 → lastAssistant msgs' = some t) := by
  intro fuel
  induction fuel with
  | zero =>
    intro messages mem perf
    exact ⟨(lastAssistant messages).getD "", perf, messages, mem,
      runReactAux_zero reg jp jser saveR model messages mem perf,
      by omega, rfl, rfl, fun _ => ⟨rfl, rfl⟩, fun hne => absurd rfl hne⟩
  | succ n ih =>
    intro messages mem perf
    obtain ⟨out, c, hm, hparse, hq⟩ := H messages
    obtain ⟨result, mem2, hd⟩ := dispatchTool_ok reg saveR mem c hq
    obtain ⟨t, p, msgs', mem', hrun, hsteps, hmms, htms, h0, h1⟩ :=
      ih (messages ++ [{ role := "assistant", content := out },
        { role := "user", content := "OBSERVATION:\n" ++ jser (obsOf result) }])
        mem2 { perf with steps := perf.steps + 1 }
    have hsteps' : p.steps = perf.steps + 1 + n := hsteps
    have hmms' : p.model_ms = perf.model_ms := hmms
    have htms' : p.tool_ms = perf.tool_ms := htms
    refine ⟨t, p, msgs', mem', ?_, by omega, hmms', htms',
      fun hz => absurd hz (Nat.succ_ne_zero n), fun _ => ?_⟩
    · rw [runReactAux_tool_ok reg jp jser saveR model n messages mem perf
        out c result mem2 hm hparse hd]
      exact hrun
    · by_cases hn : n = 0
      · subst hn
        obtain ⟨ht, hmsgs⟩ := h0 rfl
        subst hmsgs
        subst ht
        rw [lastAssistant_append]
        rfl
      · exact h1 hn

/-- **C5 (amended).** The ReAct loop makes at most the configured maximum
number of model turns (6); if the model stub always returns a parsable
tool call, and never a `memory_search` call missing its `query` string,
the loop runs exactly 6 turns and returns success with the most recent
assistant-authored message, never an error. -/
theorem c5_amended (reg : Registry) (jp : String → Option J)
    (jser : J → String) (saveR : Except String Unit)
    (model : List ChatMessage → Except String String)
    (base : List ChatMessage) (sysPrompt : String) (mem : List MemoryItem) :
    (∀ t p, run_react reg jp jser saveR model base sysPrompt mem =
        .ok (t, p) → p.steps ≤ maxSteps) ∧
    ((∀ msgs, ∃ out c, model msgs = .ok out ∧
        parse_tool_call jp out = some c ∧
        (c.tool = "memory_search" → ((jGet c.args "query").bind jAsStr).isSome)) →
      ∃ t p msgs' mem',
        runReactAux reg jp jser saveR model maxSteps
            (initialMessages reg mem base sysPrompt) mem
            { steps := 0, model_ms := 0, tool_ms := 0 } =
          .ok (t, p, msgs', mem') ∧
        p.steps = maxSteps ∧
        lastAssistant msgs' = some t ∧
        run_react reg jp jser saveR model base sysPrompt mem = .ok (t, p)) := by
  constructor
  · intro t p h
    unfold run_react at h
    cases hr : runReactAux reg jp jser saveR model maxSteps
        (initialMessages reg mem base sysPrompt) mem
        { steps := 0, model_ms := 0, tool_ms := 0 } with
    | error e =>
      rw [hr] at h
      simp [Except.map] at h
    | ok r =>
      obtain ⟨t', p', msgs', mem'⟩ := r
      rw [hr] at h
      simp only [Except.map, Except.ok.injEq, Prod.mk.injEq] at h
      obtain ⟨ht, hp⟩ := h
      subst ht
      subst hp
      have := runReactAux_steps_le reg jp jser saveR model maxSteps
        (initialMessages reg mem base sysPrompt) mem
        { steps := 0, model_ms := 0, tool_ms := 0 } t' p' msgs' mem' hr
      simpa using this
  · intro H
    obtain ⟨t, p, msgs', mem', hrun, hsteps, hmms, htms, h0, h1⟩ :=
      runReactAux_budget reg jp jser saveR model H maxSteps
        (initialMessages reg mem base sysPrompt) mem
        { steps := 0, model_ms := 0, tool_ms := 0 }
    refine ⟨t, p, msgs', mem', hrun, by simpa using hsteps,
      h1 (by decide), ?_⟩
    unfold run_react
    rw [hrun]
    rfl

/-- **C5 (counterexample).** A stub that always returns a parsable tool
call can make `run_react` return an error on its very first turn instead
of running all six turns to a successful answer: the intercepted
`memory_search` branch propagates a missing `query` with `?`, aborting the
whole loop. -/
theorem c5_counterexample :
    parse_tool_call c5Jp "ACTION: memory_search\nINPUT: x" =
      some { tool := "memory_search", args := J.jobj [] } ∧
    run_react [] c5Jp (fun _ => "") (.ok ()) c5Model [] "" [] =
      .error "missing args.query" := by
  constructor
  · rfl
  · rfl

/-- Witness for the amended C5: with the always-tool-calling stub the loop
succeeds after exactly `maxSteps` turns, its answer being the most recent
assistant message. -/
theorem c5_amended_witness :
    ∃ t p msgs' mem',
      runReactAux [] c5wJp (fun _ => "") (.ok ()) c5wModel maxSteps
          (initialMessages [] [] [] "") []
          { steps := 0, model_ms := 0, tool_ms := 0 } =
        .ok (t, p, msgs', mem') ∧
      p.steps = maxSteps ∧
      lastAssistant msgs' = some t ∧
      run_react [] c5wJp (fun _ => "") (.ok ()) c5wModel [] "" [] =
        .ok (t, p) :=
  (c5_amended [] c5wJp (fun _ => "") (.ok ()) c5wModel [] "" []).2
    (fun _ => ⟨"ACTION: nop\nINPUT: 1",
      { tool := "nop", args := J.jnum 1 }, rfl, rfl,
      fun hcontr => absurd hcontr (by decide)⟩)

/-- **C4 (counterexample).** The claim fails as stated: the path
`./concept/a.txt` resolves under the reserved `concept/` folder and does
not end in `.md`, yet the prefix check `starts_with("concept/")` misses
it, so the call succeeds and creates the file — the policy error is not
raised and the filesystem is mutated. -/
theorem c4_counterexample :
    fs_write_text (fun _ => none) (fun s => s) "0"
        { files := [], dirs := [["concept"]] }
        (J.jobj [("path", J.jstr "./concept/a.txt"), ("text", J.jstr "x")]) =
      (.ok (J.jobj [("ok", J.jbool true)]),
        { files := [(["concept", "a.txt"], "x")], dirs := [["concept"]] }) ∧
    ({ files := [(["concept", "a.txt"], "x")], dirs := [["concept"]] } : FS) ≠
      { files := [], dirs := [["concept"]] } := by
  constructor
  · rfl
  · decide

/-- **C4 (amended).** For every path argument whose backslash-normalised
form starts with one of the literal prefixes `concept/`, `outline/` or
`stories/` and does not end (case-insensitively) in `.md`, the call fails
with the policy-violation error before any filesystem mutation: the
returned filesystem is exactly the input one. -/
theorem c4_amended (jp : String → Option J) (hash : String → String)
    (now : String) (fs : FS) (args : J) (path : String)
    (hpath : (jGet args "path").bind jAsStr = some path)
    (hblank : trimS path ≠ "")
    (hpre : (startsS (backslashNorm path) "concept/" ||
      startsS (backslashNorm path) "outline/" ||
      startsS (backslashNorm path) "stories/") = true)
    (hext : endsS (lowerS (backslashNorm path)) ".md" = false) :
    fs_write_text jp hash now fs args =
      (.error "concept/outline/stories 目录仅允许写入 .md 文件", fs) := by
  simp [fs_write_text, hpath, hblank, hpre, hext]

/-- Witness for the amended C4 at concrete inputs. -/
theorem c4_amended_witness :
    fs_write_text (fun _ => none) (fun s => s) "0"
        { files := [], dirs := [["concept"]] }
        (J.jobj [("path", J.jstr "concept/evil.txt"), ("text", J.jstr "x")]) =
      (.error "concept/outline/stories 目录仅允许写入 .md 文件",
        { files := [], dirs := [["concept"]] }) :=
  c4_amended (fun _ => none) (fun s => s) "0"
    { files := [], dirs := [["concept"]] }
    (J.jobj [("path", J.jstr "concept/evil.txt"), ("text", J.jstr "x")])
    "concept/evil.txt" rfl (by decide) (by decide) (by decide)
